import Mathlib

set_option maxRecDepth 100000
set_option maxHeartbeats 2000000

/-!
Verification development for the `english-validator` package
(`src/index.ts`): a layered heuristic pipeline that decides whether a text
string is predominantly English.

The TypeScript source is shallowly embedded here:

* Text is a `List Char` (`Str`); `null` / `undefined` / non-string inputs
  are the `none` case of `Option Str`.
* JavaScript `Map` objects (the two memoization caches) are association
  lists in insertion order, which matches `Map` iteration order.
* The thrown `TypeError` that occurs when the external trigram identifier
  returns an empty ranking (destructuring `detectedLanguage[0]` of an
  empty array) is modelled as the result `none : Option Bool`.
* Numbers used for thresholds, confidences and ratios are modelled as `ℚ`.
* The external collaborators that are not part of the repository's `src`
  tree are parameters: the English dictionary membership function `dict`
  (the `englishDictionary` set from the missing `dictionary.ts` module),
  the geographical-term word list `geoTerms` (the `wordsToRemove` data of
  the same module; only the term strings matter, the boolean flags are
  ignored by the source), and the `franc` `francAll` ranking function.
* Case-insensitive regex matching (the `i` flag without `u`) is modelled
  by the canonicalisation table `caseFoldTable`, which covers ASCII,
  Latin-1 and the Latin Extended-A characters that occur in the source's
  patterns; JavaScript's canonicalisation agrees with it on this range
  (including the rule that a non-ASCII character never canonicalises to
  an ASCII one, e.g. dotless ı does not match I).
* The Unicode `\p{L}` letter property is modelled on the Basic Latin,
  Latin-1 and Latin Extended-A/B range, which covers every string that
  appears in this development.
-/

namespace EnglishValidator

/-- Text is modelled as a list of characters. -/
abbrev Str := List Char

/-- The apostrophe character `'` (U+0027). -/
def apos : Char := Char.ofNat 39

/-- ASCII word characters, the class `\w` = `[A-Za-z0-9_]` that JavaScript
uses for `\b` word boundaries in regexes compiled without the `u` flag. -/
def isWordChar (c : Char) : Bool :=
  decide (('a' ≤ c ∧ c ≤ 'z') ∨ ('A' ≤ c ∧ c ≤ 'Z') ∨ ('0' ≤ c ∧ c ≤ '9') ∨ c = '_')

/-- JavaScript's whitespace class `\s` (also the set removed by
`String.prototype.trim`). -/
def isSpaceJS (c : Char) : Bool :=
  decide (c = ' ' ∨ c.toNat = 9 ∨ c.toNat = 10 ∨ c.toNat = 11 ∨ c.toNat = 12 ∨
    c.toNat = 13 ∨ c.toNat = 160 ∨ c.toNat = 5760 ∨
    (8192 ≤ c.toNat ∧ c.toNat ≤ 8202) ∨ c.toNat = 8232 ∨ c.toNat = 8233 ∨
    c.toNat = 8239 ∨ c.toNat = 8287 ∨ c.toNat = 12288 ∨ c.toNat = 65279)

/-- Lower-case/upper-case pairs used to model JavaScript's case-insensitive
regex canonicalisation on the character range this development uses
(ASCII, Latin-1 letters, and the Latin Extended-A letters of the source's
patterns).  `ß` is absent because its upper-case form is the two-character
string `SS`, which JavaScript therefore does not canonicalise. -/
def caseFoldTable : List (Char × Char) :=
  List.zip ("abcdefghijklmnopqrstuvwxyzàáâãäåæçèéêëìíîïðñòóôõöøùúûüýþÿąćęłńśźżşğœ".toList)
           ("ABCDEFGHIJKLMNOPQRSTUVWXYZÀÁÂÃÄÅÆÇÈÉÊËÌÍÎÏÐÑÒÓÔÕÖØÙÚÛÜÝÞŸĄĆĘŁŃŚŹŻŞĞŒ".toList)

/-- JavaScript regex canonicalisation for `i`-flag matching: map a character
to its canonical (upper-case) form when the table knows it, otherwise keep
it unchanged. -/
def canonJS (c : Char) : Char :=
  ((caseFoldTable.find? (fun p => p.1 == c)).map (fun p => p.2)).getD c

/-- `String.prototype.toLowerCase` on the character range this development
uses (the inverse direction of `caseFoldTable`). -/
def jsToLower (c : Char) : Char :=
  (((caseFoldTable.map (fun p => (p.2, p.1))).find? (fun p => p.1 == c)).map
    (fun p => p.2)).getD c

/-- Case-insensitive character comparison under the `i` flag. -/
def ciEqC (a b : Char) : Bool := canonJS a == canonJS b

/-- Case-insensitive string equality. -/
def ciEqStr (a b : Str) : Bool := a.map canonJS == b.map canonJS

/-- The length of `dropWhile` never exceeds the input length. -/
theorem length_dropWhile_le {α : Type} (p : α → Bool) (l : List α) :
    (l.dropWhile p).length ≤ l.length := by
  induction l with
  | nil => simp
  | cons c t ih =>
    by_cases h : p c
    · simp only [List.dropWhile_cons, h, if_true, List.length_cons]
      exact Nat.le_succ_of_le ih
    · simp [List.dropWhile_cons, h]

/-- Every table entry maps a word character to a word character and a
non-word character to a non-word character. -/
theorem caseFoldTable_wordChar :
    ∀ p ∈ caseFoldTable, isWordChar p.2 = isWordChar p.1 := by decide

/-- Canonicalisation preserves word-character-ness. -/
theorem isWordChar_canonJS (c : Char) : isWordChar (canonJS c) = isWordChar c := by
  unfold canonJS
  cases h : caseFoldTable.find? (fun q => q.1 == c) with
  | none => rfl
  | some q =>
    have hm : q ∈ caseFoldTable := List.mem_of_find?_eq_some h
    have he := List.find?_some h
    have hq : q.1 = c := by simpa using he
    simpa [hq] using caseFoldTable_wordChar q hm

/-- Case-insensitively equal characters have the same word-character-ness. -/
theorem isWordChar_of_ciEqC {a b : Char} (h : ciEqC a b) : isWordChar a = isWordChar b := by
  have : canonJS a = canonJS b := by simpa [ciEqC] using h
  rw [← isWordChar_canonJS a, ← isWordChar_canonJS b, this]

/-- `String.prototype.trim`: drop JavaScript whitespace from both ends. -/
def jsTrim (s : Str) : Str :=
  ((s.dropWhile isSpaceJS).reverse.dropWhile isSpaceJS).reverse

/-- `text.replace(/\s+/g, " ")`, written as a one-pass state machine: the
flag records whether the scan is inside a whitespace run whose single
replacement space has already been emitted. -/
def collapseWsAux : Bool → Str → Str
  | _, [] => []
  | inRun, c :: t =>
    if isSpaceJS c then
      if inRun then collapseWsAux true t
      else ' ' :: collapseWsAux true t
    else c :: collapseWsAux false t

/-- `text.replace(/\s+/g, " ")`: collapse each whitespace run to one space. -/
def collapseWs (s : Str) : Str := collapseWsAux false s

/-- `normalizeWhitespace` from the source: collapse whitespace runs to single
spaces, then trim. -/
def normalizeWhitespace (s : Str) : Str := jsTrim (collapseWs s)

/-- JavaScript `text.split(" ")`: split on every single space character
(the empty string yields `[""]`). -/
def splitOnSpace : Str → List Str
  | [] => [[]]
  | c :: t =>
    match splitOnSpace t with
    | [] => [[]]
    | h :: r => if c = ' ' then [] :: h :: r else (c :: h) :: r

/-- Accumulator pass for `tokens`: `cur` holds the reversed word-character
run currently being read. -/
def tokensAux : Str → Str → List Str
  | cur, [] => if cur = [] then [] else [cur.reverse]
  | cur, c :: t =>
    if isWordChar c then tokensAux (c :: cur) t
    else if cur = [] then tokensAux [] t
    else cur.reverse :: tokensAux [] t

/-- The maximal word-character runs of a string, i.e. the `\w`-tokens that a
`\b`-delimited regex can match in full. -/
def tokens (s : Str) : List Str := tokensAux [] s

/-! ### JavaScript `Map` model and the shared cache-eviction helper -/

/-- A JavaScript `Map` as an association list in insertion order. -/
abbrev JSMap (α β : Type) := List (α × β)

/-- `Map.prototype.get` (with `has` folded in): the value stored under `k`. -/
def mapGet {α β : Type} [DecidableEq α] (m : JSMap α β) (k : α) : Option β :=
  (m.find? (fun p => p.1 = k)).map (fun p => p.2)

/-- `Map.prototype.set`: update in place when the key exists (keeping its
position in insertion order), otherwise append at the end. -/
def mapSet {α β : Type} [DecidableEq α] (m : JSMap α β) (k : α) (v : β) : JSMap α β :=
  if (mapGet m k).isSome then m.map (fun p => if p.1 = k then (k, v) else p)
  else m ++ [(k, v)]

/-- `Map.prototype.delete`. -/
def mapDelete {α β : Type} [DecidableEq α] (m : JSMap α β) (k : α) : JSMap α β :=
  m.filter (fun p => p.1 ≠ k)

/-- `cache.keys().next().value`: the first key in iteration order, which for
a JavaScript `Map` is the earliest-inserted key still present. -/
def mapFirstKey {α β : Type} (m : JSMap α β) : Option α :=
  m.head?.map (fun p => p.1)

/-- `cacheSet` from the source: evict the oldest entry when the size limit
is reached, then insert the new entry. -/
def cacheSet {α β : Type} [DecidableEq α] (m : JSMap α β) (limit : Nat) (k : α) (v : β) :
    JSMap α β :=
  let m' :=
    if limit ≤ m.length then
      match mapFirstKey m with
      | some firstKey => mapDelete m firstKey
      | none => m
    else m
  mapSet m' k v

/-- `FRANC_CACHE_LIMIT` from the source. -/
def FRANC_CACHE_LIMIT : Nat := 1000

/-- `WORD_CACHE_LIMIT` from the source. -/
def WORD_CACHE_LIMIT : Nat := 5000

/-! ### A small regex evaluator for the document-ID patterns

The four removal patterns and three match patterns for document IDs are
concatenations of bounded character-class repetitions, with one level of
bounded group repetition, wrapped in `\b...\b`.  The evaluator below
returns, for a pattern and a string, every prefix length the pattern can
match, in JavaScript's greedy backtracking order, so that the head of the
list is the length JavaScript picks. -/

/-- A bounded character-class repetition `[class]{lo,hi}`. -/
structure Cls where
  p : Char → Bool
  lo : Nat
  hi : Nat

/-- One pattern atom: a class repetition or a bounded group `(...){lo,hi}`
whose body is a sequence of class repetitions. -/
inductive Atom where
  | cls (c : Cls)
  | grp (body : List Cls) (lo hi : Nat)

/-- Candidate match lengths of `[class]{lo,hi}` on a prefix of `s`,
greedy (longest first). -/
def clsLens (c : Cls) (s : Str) : List Nat :=
  let run := (s.takeWhile c.p).length
  let top := min c.hi run
  if top < c.lo then []
  else (List.range (top + 1 - c.lo)).map (fun i => top - i)

/-- Candidate total match lengths of a sequence of class repetitions,
in backtracking order. -/
def clsSeqLens : List Cls → Str → List Nat
  | [], _ => [0]
  | c :: rest, s =>
    (clsLens c s).flatMap (fun k => (clsSeqLens rest (s.drop k)).map (fun n => k + n))

/-- Candidate total match lengths of a group repeated between `needed` and
`needed + fuel` more times, greedy (more iterations first). -/
def repLens (body : List Cls) (fuel needed : Nat) (s : Str) : List Nat :=
  match fuel with
  | 0 => if needed = 0 then [0] else []
  | f + 1 =>
    let more :=
      (clsSeqLens body s).flatMap
        (fun k => (repLens body f (needed - 1) (s.drop k)).map (fun n => k + n))
    if needed = 0 then more ++ [0] else more

/-- Candidate match lengths of one atom. -/
def atomLens : Atom → Str → List Nat
  | Atom.cls c, s => clsLens c s
  | Atom.grp body lo hi, s => repLens body hi lo s

/-- Candidate total match lengths of a full pattern, in backtracking order. -/
def seqLens : List Atom → Str → List Nat
  | [], _ => [0]
  | a :: rest, s =>
    (atomLens a s).flatMap (fun k => (seqLens rest (s.drop k)).map (fun n => k + n))

/-- Word-character test on an optional character (`none` = string edge). -/
def isWordOpt : Option Char → Bool
  | none => false
  | some c => isWordChar c

/-- JavaScript `\b`: a boundary lies between two neighbouring positions iff
exactly one of them holds a word character. -/
def bAt (l r : Option Char) : Bool := isWordOpt l ≠ isWordOpt r

/-- Fuelled scan for `replaceAllDoc`.  Every recursion step consumes at
least one character (matches are forced non-empty), so fuel equal to the
string length is always sufficient and the fuel-exhausted branch is never
reached from the wrapper. -/
def replaceAllDocF (re : List Atom) : Nat → Option Char → Str → Str
  | 0, _, s => s
  | _ + 1, _, [] => []
  | fuel + 1, prev, c :: t =>
    if bAt prev (some c) then
      match (seqLens re (c :: t)).find?
          (fun L => decide (0 < L) && bAt ((c :: t).take L).getLast? ((c :: t).drop L).head?) with
      | some L =>
        replaceAllDocF re fuel (some (((c :: t).take L).getLastD c)) ((c :: t).drop L)
      | none => c :: replaceAllDocF re fuel (some c) t
    else c :: replaceAllDocF re fuel (some c) t

/-- Global replace-with-empty of a `\b...\b`-delimited document pattern:
scan left to right; at each position whose left context forms a boundary,
take the first backtracking candidate length whose right end also forms a
boundary; matched characters are dropped and scanning resumes after them. -/
def replaceAllDoc (re : List Atom) (s : Str) : Str :=
  replaceAllDocF re s.length none s

/-- ASCII upper-case letters `[A-Z]`. -/
def isUpperAscii (c : Char) : Bool := decide ('A' ≤ c ∧ c ≤ 'Z')

/-- ASCII digits `\d` = `[0-9]`. -/
def isDigitAscii (c : Char) : Bool := decide ('0' ≤ c ∧ c ≤ '9')

/-- The hyphen literal `-` as a character class. -/
def isDash (c : Char) : Bool := decide (c = '-')

/-- `DOCUMENT_PATTERNS_REMOVE` from the source (global flag), as atom lists:
`\b[A-Z]{2,6}\d{0,4}(-[A-Z]{2,6}\d{0,4}){1,4}\b`,
`\b[A-Z]{2,6}\d{2,4}-[A-Z]{1,3}\d{1,3}\b`,
`\b[A-Z]{2,6}\d{1,4}\b`,
`\b[A-Z]{2,4}-[A-Z]{2,4}\d{2,4}\b`. -/
def DOCUMENT_PATTERNS_REMOVE : List (List Atom) :=
  [[Atom.cls ⟨isUpperAscii, 2, 6⟩, Atom.cls ⟨isDigitAscii, 0, 4⟩,
    Atom.grp [⟨isDash, 1, 1⟩, ⟨isUpperAscii, 2, 6⟩, ⟨isDigitAscii, 0, 4⟩] 1 4],
   [Atom.cls ⟨isUpperAscii, 2, 6⟩, Atom.cls ⟨isDigitAscii, 2, 4⟩, Atom.cls ⟨isDash, 1, 1⟩,
    Atom.cls ⟨isUpperAscii, 1, 3⟩, Atom.cls ⟨isDigitAscii, 1, 3⟩],
   [Atom.cls ⟨isUpperAscii, 2, 6⟩, Atom.cls ⟨isDigitAscii, 1, 4⟩],
   [Atom.cls ⟨isUpperAscii, 2, 4⟩, Atom.cls ⟨isDash, 1, 1⟩, Atom.cls ⟨isUpperAscii, 2, 4⟩,
    Atom.cls ⟨isDigitAscii, 2, 4⟩]]

/-- `removeDocumentPatterns` from the source: apply each removal pattern
globally in order, then normalise whitespace. -/
def removeDocumentPatterns (text : Str) : Str :=
  normalizeWhitespace
    (DOCUMENT_PATTERNS_REMOVE.foldl (fun acc re => replaceAllDoc re acc) text)

/-! ### Case-insensitive whole-word matching (`\b...\b` with the `i` flag)

The geo-term patterns `\b<term>\b|\b<term>s\b` and the exclude-word
patterns `\b<word>\b` are literal alternatives wrapped in word boundaries
(the source escapes regex metacharacters in user words, so the words match
literally).  `altMatchAt` decides whether one of the alternatives matches
at the current position, trying them left to right as JavaScript does. -/

/-- Case-insensitive literal prefix test: pattern `w` matches the first
`w.length` characters of `s`. -/
def ciPref : Str → Str → Bool
  | [], _ => true
  | _ :: _, [] => false
  | p :: ps, c :: cs => ciEqC p c && ciPref ps cs

/-- A successful case-insensitive prefix needs at least its own length. -/
theorem ciPref_length {w s : Str} (h : ciPref w s) : w.length ≤ s.length := by
  induction w generalizing s with
  | nil => simp
  | cons p ps ih =>
    cases s with
    | nil => simp [ciPref] at h
    | cons c cs =>
      simp only [ciPref, Bool.and_eq_true] at h
      simpa using ih h.2

/-- Match one of the `\b<alt>\b` alternatives at the current position:
`prev` is the character just before the position (`none` at the string
start); alternatives are tried left to right.  Returns the match length. -/
def altMatchAt (alts : List Str) (prev : Option Char) (s : Str) : Option Nat :=
  alts.findSome? (fun w =>
    if w ≠ [] ∧ ciPref w s ∧ bAt prev s.head? ∧
        bAt (s.take w.length).getLast? (s.drop w.length).head?
    then some w.length else none)

/-- A match found by `altMatchAt` is non-empty and fits in the string. -/
theorem altMatchAt_pos {alts : List Str} {prev : Option Char} {s : Str} {L : Nat}
    (h : altMatchAt alts prev s = some L) : 0 < L ∧ L ≤ s.length := by
  obtain ⟨w, -, hw⟩ := List.exists_of_findSome?_eq_some h
  by_cases hc : w ≠ [] ∧ ciPref w s ∧ bAt prev s.head? ∧
      bAt (s.take w.length).getLast? (s.drop w.length).head?
  · rw [if_pos hc] at hw
    injection hw with hw
    subst hw
    refine ⟨?_, ciPref_length hc.2.1⟩
    cases w with
    | nil => exact absurd rfl hc.1
    | cons a b => simp
  · rw [if_neg hc] at hw
    simp at hw

/-- Fuelled scan for `rmAll`; every step consumes at least one character
(matched alternatives are non-empty), so fuel equal to the string length
suffices and the fuel-exhausted branch is never reached from the wrapper. -/
def rmAllF (alts : List Str) : Nat → Option Char → Str → Str
  | 0, _, s => s
  | _ + 1, _, [] => []
  | fuel + 1, prev, c :: t =>
    match altMatchAt alts prev (c :: t) with
    | some L => rmAllF alts fuel (some (((c :: t).take L).getLastD c)) ((c :: t).drop L)
    | none => c :: rmAllF alts fuel (some c) t

/-- Global replace-with-empty of `\b(<alt1>|<alt2>|...)\b` (flags `gi`):
after a match the scan resumes right after the matched characters, with the
last matched character as the new left context, exactly as a JavaScript
global regex does via `lastIndex`. -/
def rmAll (alts : List Str) (prev : Option Char) (s : Str) : Str :=
  rmAllF alts s.length prev s

/-- First-match-only replace-with-empty of `\b(<alt1>|<alt2>|...)\b` (flag
`i` without `g`): only the leftmost match is removed, the rest of the
string is returned unchanged. -/
def rmFirst (alts : List Str) : Option Char → Str → Str
  | _, [] => []
  | prev, c :: t =>
    match altMatchAt alts prev (c :: t) with
    | some L => (c :: t).drop L
    | none => c :: rmFirst alts (some c) t

/-- `removeGeographicalTerms` from the source.  Each term's precompiled
pattern is `\b<term>\b|\b<term>s\b` with the `i` flag only (no `g` flag),
so `String.prototype.replace` removes only the first match per pattern;
afterwards whitespace is normalised.  The term list itself is the
`wordsToRemove` data of the repository's missing dictionary module and is
therefore a parameter. -/
def removeGeographicalTerms (geoTerms : List Str) (inputText : Str) : Str :=
  if inputText = [] then inputText
  else
    normalizeWhitespace
      (geoTerms.foldl (fun acc w => rmFirst [w, w ++ ['s']] none acc) inputText)

/-- The exclude-words stage of `preprocessText`: each user-supplied word is
removed via `new RegExp("\\b" + escaped + "\\b", "gi")` — a global,
case-insensitive, whole-word, literal match. -/
def removeExcludeWords (ws : List Str) (s : Str) : Str :=
  ws.foldl (fun acc w => rmAll [w] none acc) s

/-- Unicode letters (`\p{L}`) on the character range used in this
development: ASCII letters plus the Latin-1 / Latin Extended-A and B
letters (U+00C0–U+024F except the two multiplication/division signs). -/
def isLetterUni (c : Char) : Bool :=
  decide (('a' ≤ c ∧ c ≤ 'z') ∨ ('A' ≤ c ∧ c ≤ 'Z') ∨
    (192 ≤ c.toNat ∧ c.toNat ≤ 591 ∧ c.toNat ≠ 215 ∧ c.toNat ≠ 247))

/-- The characters kept by `NON_LETTER_REGEX = /[^\p{L}\s.,!?:;'"()-]/gu`:
letters, whitespace, and the fixed punctuation set. -/
def keptByNonLetter (c : Char) : Bool :=
  isLetterUni c || isSpaceJS c ||
    "\x2e\x2c\x21\x3f\x3a\x3b\x27\x22\x28\x29\x2d".toList.contains c

/-- `preprocessText` from the source: strip document IDs, then
geographical terms, then user-supplied custom patterns (modelled by their
replace-with-empty action on the string), then user-supplied exclude
words, then every character that is not a letter/whitespace/allowed
punctuation (each such character becomes a space), and finally normalise
whitespace. -/
def preprocessText (geoTerms : List Str) (text : Str)
    (customPatterns : Option (List (Str → Str))) (excludeWords : Option (List Str)) : Str :=
  let p1 := removeDocumentPatterns text
  let p2 := removeGeographicalTerms geoTerms p1
  let p3 :=
    match customPatterns with
    | some pats => if 0 < pats.length then pats.foldl (fun acc f => f acc) p2 else p2
    | none => p2
  let p4 :=
    match excludeWords with
    | some ws => if 0 < ws.length then removeExcludeWords ws p3 else p3
    | none => p3
  normalizeWhitespace (p4.map (fun c => if keptByNonLetter c then c else ' '))

/-! ### Non-English indicator checks and the word classifier -/

/-- Split a space-separated word list into the individual words (used to
transcribe the source's `^(alt1|alt2|...)$` alternation lists). -/
def wl (s : String) : List Str := splitOnSpace s.toList

/-- The `NON_ENGLISH_CHARS_REGEX` character class. -/
def NON_ENGLISH_CHARS : Str := "äöüßéèêëàâçùûÿæœáíóúñ¡¿ìòåøąćęłńśźżşğı".toList

/-- `hasNonEnglishCharacters`: `/[...]/i.test(text)`. -/
def hasNonEnglishCharacters (text : Str) : Bool :=
  text.any (fun c => NON_ENGLISH_CHARS.any (fun p => ciEqC p c))

/-- The `NON_ENGLISH_ENDINGS_REGEX` suffix alternatives. -/
def NON_ENGLISH_ENDINGS : List Str :=
  wl "keit schaft ción zione mente baar lijk eur agem ção"

/-- `hasNonEnglishEndings`: `/(?:...)$/i.test(text)`. -/
def hasNonEnglishEndings (text : Str) : Bool :=
  NON_ENGLISH_ENDINGS.any (fun suf => ciPref suf.reverse text.reverse)

/-- The `NON_ENGLISH_FUNCTION_WORDS_REGEX` alternatives. -/
def NON_ENGLISH_FUNCTION_WORDS : List Str :=
  wl "le la les du des dans avec sans sur sous entre el los las del al con sin por der die das den dem des ein eine einen einem einer eines mit il lo gli het een op aan voor met door os dos das nos nas um uma"

/-- The eight `NON_ENGLISH_WORD_PATTERNS` alternation lists. -/
def NON_ENGLISH_WORD_PATTERNS : List (List Str) :=
  [wl "und oder Wann aber Kann wenn weil dass ob für nicht kein keine nur sehr schon noch jetzt immer wieder möchte würde hätte könnte sollte müsste dürfte",
   wl "que como porque pero cuando donde quien cual este esta estos estas ese esa esos esas aquel aquella aquellos aquellas",
   wl "est sont était être avoir faire dire voir pouvoir vouloir devoir falloir savoir quand où pourquoi qui quel quelle quels quelles ce cette ces cet",
   wl "sono sei è siamo siete sono essere avere fare dire andare vedere dare sapere potere volere come quando dove perché chi quale quali",
   wl "en hoe es Er Wanneer je stel kritiek et kritisk maar want omdat hoewel terwijl tenzij indien toen totdat voordat nadat zodat mits toch dus immers namelijk",
   wl "eu tu ele ela nós vós eles elas isto isso aquilo mesmo mesma mesmos mesmas próprio própria próprios próprias",
   wl "ben sen biz siz onlar bana sana ona bize size onlara benim senin onun bizim sizin onların",
   wl "jeg mig min mit mine dig din dit dine han ham hans hun hende hendes den det de dem deres denne dette disse"]

/-- `hasNonEnglishWordPatterns`: one of the eight `^(...)$/i` patterns
matches the whole word. -/
def hasNonEnglishWordPatterns (text : Str) : Bool :=
  NON_ENGLISH_WORD_PATTERNS.any (fun pat => pat.any (fun w => ciEqStr text w))

/-- `hasObviousNonEnglishIndicators` from the source: character analysis
and suffix analysis (only for space-free text), then vocabulary and
function-word matching. -/
def hasObviousNonEnglishIndicators (text : Str) : Bool :=
  if text.length < 2 then false
  else if (!text.contains ' ') &&
      (hasNonEnglishCharacters text || hasNonEnglishEndings text) then true
  else hasNonEnglishWordPatterns text ||
    NON_ENGLISH_FUNCTION_WORDS.any (fun w => ciEqStr text w)

/-- `hasOnlyEnglishCharacters`: `/^[a-zA-Z0-9'-]+$/.test(word)`. -/
def hasOnlyEnglishCharacters (word : Str) : Bool :=
  !word.isEmpty && word.all (fun c =>
    decide (('a' ≤ c ∧ c ≤ 'z') ∨ ('A' ≤ c ∧ c ≤ 'Z') ∨ ('0' ≤ c ∧ c ≤ '9') ∨ c = '-') ||
    c == apos)

/-- `NUMBERS_ONLY_REGEX`: `/^\d+$/.test(word)`. -/
def numbersOnly (word : Str) : Bool := !word.isEmpty && word.all isDigitAscii

/-- `ABBREVIATION_REGEX`: `/^[A-Z]{2,}[0-9]*$/.test(word)` — a run of at
least two upper-case letters followed only by digits. -/
def isAbbreviation (word : Str) : Bool :=
  2 ≤ (word.takeWhile isUpperAscii).length &&
    (word.dropWhile isUpperAscii).all isDigitAscii

/-- Options consumed by the word classifier. -/
structure WordOptions where
  allowNumbers : Bool
  allowAbbreviations : Bool

/-- `isEnglishWord` from the source.  The dictionary membership function is
a parameter. Modelled from the spec: the `englishDictionary` set lives in
the repository's `dictionary.ts` module, which is not part of the provided
sources; per the spec it is an immutable set of lower-case English words
queried only through membership. -/
def isEnglishWord (dict : Str → Bool) (word : Str) (options : WordOptions) : Bool :=
  if !hasOnlyEnglishCharacters word then false
  else if options.allowNumbers && numbersOnly word then true
  else if hasObviousNonEnglishIndicators word then false
  else if dict word then true
  else if word.contains apos then dict (word.takeWhile (fun c => c != apos))
  else false

/-- The word-cache key `word + "_" + allowNumbers + "_" + allowAbbreviations`. -/
def boolStr : Bool → Str
  | true => "true".toList
  | false => "false".toList

/-- Builds the composite word-cache key used by `isEnglishWordCached`. -/
def mkKey (word : Str) (aN aA : Bool) : Str :=
  word ++ ['_'] ++ boolStr aN ++ ['_'] ++ boolStr aA

/-- The word-verdict cache. -/
abbrev WordCache := JSMap Str Bool

/-- `isEnglishWordCached` from the source: look the key up, otherwise
compute the verdict and store it with FIFO eviction. -/
def isEnglishWordCached (dict : Str → Bool) (word : Str) (options : WordOptions)
    (wc : WordCache) : Bool × WordCache :=
  let cacheKey := mkKey word options.allowNumbers options.allowAbbreviations
  match mapGet wc cacheKey with
  | some b => (b, wc)
  | none =>
    let r := isEnglishWord dict word options
    (r, cacheSet wc WORD_CACHE_LIMIT cacheKey r)

/-! ### The trigram fallback analyzer -/

/-- The franc result cache. -/
abbrev FrancCache := JSMap Str (Str × ℚ)

/-- The ISO 639-3 code franc uses for English. -/
def engCode : Str := "eng".toList

/-- The `for ... of detectedLanguage.slice(0, 5)` loop body: the first
candidate with language `eng` and confidence at least 0.9, if any. -/
def scanTop : List (Str × ℚ) → Option (Str × ℚ)
  | [] => none
  | (lang, conf) :: rest =>
    if lang = engCode ∧ mkRat 9 10 ≤ conf then some (lang, conf) else scanTop rest

/-- `francLanguageAnalysis` from the source.  The external `francAll`
ranking function is a parameter.  When the ranking is empty the source
destructures `detectedLanguage[0]` of an empty array, which throws a
`TypeError`; this is the `none` result (the cache is left unchanged on
that path, as no `cacheSet` has run yet). -/
def francLanguageAnalysis (francAll : Str → List (Str × ℚ)) (cleanText : Str)
    (cache : FrancCache) : Option (Str × ℚ) × FrancCache :=
  match mapGet cache cleanText with
  | some v => (some v, cache)
  | none =>
    let detectedLanguage := francAll cleanText
    match scanTop (detectedLanguage.take 5) with
    | some p => (some p, cacheSet cache FRANC_CACHE_LIMIT cleanText p)
    | none =>
      match detectedLanguage with
      | [] => (none, cache)
      | p :: _ => (some p, cacheSet cache FRANC_CACHE_LIMIT cleanText p)

/-- The cache-free value of the trigram analyzer, used to state that the
cache is pure memoization. -/
def francPure (francAll : Str → List (Str × ℚ)) (s : Str) : Option (Str × ℚ) :=
  match scanTop ((francAll s).take 5) with
  | some p => some p
  | none => (francAll s).head?

/-! ### The decision engine -/

/-- The public `DetectionOptions` record; absent fields are `none` and the
source's destructuring defaults apply.  A custom pattern is modelled by
the string transformation its global replace-with-empty performs. -/
structure DetectionOptions where
  englishThreshold : Option ℚ
  minWordLength : Option Nat
  allowNumbers : Option Bool
  allowAbbreviations : Option Bool
  customPatterns : Option (List (Str → Str))
  excludeWords : Option (List Str)

/-- The empty options record `{}`. -/
def defaultOptions : DetectionOptions := ⟨none, none, none, none, none, none⟩

/-- Replace the configured threshold, keeping every other field. -/
def withThreshold (o : DetectionOptions) (t : ℚ) : DetectionOptions :=
  ⟨some t, o.minWordLength, o.allowNumbers, o.allowAbbreviations,
    o.customPatterns, o.excludeWords⟩

/-- The two module-level caches. -/
structure CacheState where
  francCache : FrancCache
  wordCache : WordCache

/-- Both caches as created at module initialisation: empty. -/
def emptyState : CacheState := ⟨[], []⟩

/-- `clearLanguageDetectorCaches` from the source. -/
def clearLanguageDetectorCaches (_st : CacheState) : CacheState := ⟨[], []⟩

/-- The `WORD_PUNCTUATION_REGEX` character class (every member is plain
ASCII in the source). -/
def wordPunctChars : Str :=
  "'-\"\x60~!@#$%^&*()+=\x7b\x7d[]|\\:;<>?,./".toList

/-- One iteration of the `for (const word of words)` loop in
`detectNonEnglishText`: strip punctuation and trim, skip short words,
count abbreviations (checked on the original casing) or cached word
verdicts (on the lower-cased word).  The accumulator is
(englishWordCount, totalRelevantWords, word cache). -/
def processWordStep (dict : Str → Bool) (minWordLength : Nat) (aN aA : Bool)
    (acc : Nat × Nat × WordCache) (word : Str) : Nat × Nat × WordCache :=
  let cleanWord := jsTrim (word.filter (fun c => !(wordPunctChars.contains c)))
  if cleanWord.length < minWordLength then acc
  else if aA && isAbbreviation cleanWord then (acc.1 + 1, acc.2.1 + 1, acc.2.2)
  else
    let r := isEnglishWordCached dict (cleanWord.map jsToLower) ⟨aN, aA⟩ acc.2.2
    if r.1 then (acc.1 + 1, acc.2.1 + 1, r.2) else (acc.1, acc.2.1 + 1, r.2)

/-- The whole word loop of `detectNonEnglishText`. -/
def wordLoop (dict : Str → Bool) (minWordLength : Nat) (aN aA : Bool)
    (wc : WordCache) (words : List Str) : Nat × Nat × WordCache :=
  words.foldl (processWordStep dict minWordLength aN aA) (0, 0, wc)

/-- `englishRatio`: `englishWordCount / totalRelevantWords`, or 1.0 when no
relevant words exist. -/
def ratioOf (e tot : Nat) : ℚ := if 0 < tot then mkRat (e : Int) tot else 1

/-- The threshold actually compared with the ratio: the source overrides
the configured threshold with 0.6 when the cleaned text has at most four
tokens. -/
def effectiveThreshold (configured : ℚ) (numWords : Nat) : ℚ :=
  if numWords ≤ 4 then mkRat 3 5 else configured

/-- The trigram-fallback tail of `detectNonEnglishText`: consult the
analyzer, rescue as English when it reports `eng` with confidence ≥ 0.9
and the word ratio is at least 0.7, otherwise report non-English.  A
`none` analyzer outcome is the propagated `TypeError`. -/
def francDecision (francAll : Str → List (Str × ℚ)) (francInputText : Str)
    (englishRat : ℚ) (fc : FrancCache) (wc : WordCache) : Option Bool × CacheState :=
  match francLanguageAnalysis francAll francInputText fc with
  | (none, fc') => (none, ⟨fc', wc⟩)
  | (some lr, fc') =>
    if lr.1 = engCode ∧ mkRat 9 10 ≤ lr.2 ∧ mkRat 7 10 ≤ englishRat then (some false, ⟨fc', wc⟩)
    else (some true, ⟨fc', wc⟩)

/-- The body of `detectNonEnglishText` after the empty-input guards.  Note
that `francInputText` is bound to the raw `inputText` before preprocessing
in the source; the franc consultation below therefore receives the raw
input string. -/
def detectCore (dict : Str → Bool) (francAll : Str → List (Str × ℚ))
    (geoTerms : List Str) (inputText : Str) (o : DetectionOptions)
    (st : CacheState) : Option Bool × CacheState :=
  let processedText := preprocessText geoTerms inputText o.customPatterns o.excludeWords
  let words := splitOnSpace processedText
  if words.length = 0 then (some false, st)
  else
    let r := wordLoop dict (o.minWordLength.getD 2) (o.allowNumbers.getD true)
      (o.allowAbbreviations.getD true) st.wordCache words
    let englishRat := ratioOf r.1 r.2.1
    if effectiveThreshold (o.englishThreshold.getD (mkRat 4 5)) words.length ≤ englishRat then
      (some false, ⟨st.francCache, r.2.2⟩)
    else francDecision francAll inputText englishRat st.francCache r.2.2

/-- `detectNonEnglishText` from the source.  `none` input stands for
`null`/`undefined`/non-string values; the result `none` stands for a
thrown `TypeError` (possible only through the trigram analyzer). -/
def detectNonEnglishText (dict : Str → Bool) (francAll : Str → List (Str × ℚ))
    (geoTerms : List Str) (inputText : Option Str) (options : DetectionOptions)
    (st : CacheState) : Option Bool × CacheState :=
  match inputText with
  | none => (some false, st)
  | some t =>
    if t = [] ∨ (jsTrim t).length = 0 then (some false, st)
    else detectCore dict francAll geoTerms t options st

/-- `isEnglish` from the source: the boolean negation of
`detectNonEnglishText` (a thrown error propagates). -/
def isEnglish (dict : Str → Bool) (francAll : Str → List (Str × ℚ))
    (geoTerms : List Str) (inputText : Option Str) (options : DetectionOptions)
    (st : CacheState) : Option Bool × CacheState :=
  let r := detectNonEnglishText dict francAll geoTerms inputText options st
  (r.1.map (fun b => !b), r.2)

/-! ### The cache-free reference function

`detectPure` recomputes what `detectNonEnglishText` returns without
consulting or updating any cache; the memoization-purity theorems show
that `detectNonEnglishText` always returns this value from any reachable
cache state. -/

/-- One cache-free word-loop iteration. -/
def processWordPureStep (dict : Str → Bool) (minWordLength : Nat) (aN aA : Bool)
    (acc : Nat × Nat) (word : Str) : Nat × Nat :=
  let cleanWord := jsTrim (word.filter (fun c => !(wordPunctChars.contains c)))
  if cleanWord.length < minWordLength then acc
  else if aA && isAbbreviation cleanWord then (acc.1 + 1, acc.2 + 1)
  else if isEnglishWord dict (cleanWord.map jsToLower) ⟨aN, aA⟩ then
    (acc.1 + 1, acc.2 + 1)
  else (acc.1, acc.2 + 1)

/-- The cache-free word loop. -/
def wordLoopPure (dict : Str → Bool) (minWordLength : Nat) (aN aA : Bool)
    (words : List Str) : Nat × Nat :=
  words.foldl (processWordPureStep dict minWordLength aN aA) (0, 0)

/-- The cache-free value of `detectNonEnglishText`. -/
def detectPure (dict : Str → Bool) (francAll : Str → List (Str × ℚ))
    (geoTerms : List Str) (inputText : Option Str) (o : DetectionOptions) :
    Option Bool :=
  match inputText with
  | none => some false
  | some t =>
    if t = [] ∨ (jsTrim t).length = 0 then some false
    else
      let words := splitOnSpace (preprocessText geoTerms t o.customPatterns o.excludeWords)
      if words.length = 0 then some false
      else
        let r := wordLoopPure dict (o.minWordLength.getD 2) (o.allowNumbers.getD true)
          (o.allowAbbreviations.getD true) words
        let rat := ratioOf r.1 r.2
        if effectiveThreshold (o.englishThreshold.getD (mkRat 4 5)) words.length ≤ rat then
          some false
        else
          match francPure francAll t with
          | none => none
          | some lr =>
            if lr.1 = engCode ∧ mkRat 9 10 ≤ lr.2 ∧ mkRat 7 10 ≤ rat then some false else some true

/-- The cache states reachable through the public API: the initial empty
state, the state after any detection call, and the state after a cache
clear. -/
inductive Reachable (dict : Str → Bool) (francAll : Str → List (Str × ℚ))
    (geoTerms : List Str) : CacheState → Prop
  | init : Reachable dict francAll geoTerms emptyState
  | step (t : Option Str) (o : DetectionOptions) (s : CacheState) :
      Reachable dict francAll geoTerms s →
      Reachable dict francAll geoTerms (detectNonEnglishText dict francAll geoTerms t o s).2
  | clear (s : CacheState) :
      Reachable dict francAll geoTerms s →
      Reachable dict francAll geoTerms (clearLanguageDetectorCaches s)

/-! ### Small helper lemmas about the split and the analyzer -/

/-- `splitOnSpace` never produces the empty list (JavaScript's `split`
always yields at least one piece). -/
theorem splitOnSpace_ne_nil (s : Str) : splitOnSpace s ≠ [] := by
  induction s with
  | nil => simp [splitOnSpace]
  | cons c t ih =>
    unfold splitOnSpace
    cases h : splitOnSpace t with
    | nil => simp
    | cons a r =>
      by_cases hc : c = ' ' <;> simp [hc]

/-- The `slice(0,5)` loop of the analyzer is `find?` over the first five
candidates. -/
theorem scanTop_eq_find (l : List (Str × ℚ)) :
    scanTop l = l.find? (fun p => decide (p.1 = engCode ∧ mkRat 9 10 ≤ p.2)) := by
  induction l with
  | nil => rfl
  | cons p rest ih =>
    obtain ⟨lang, conf⟩ := p
    show (if lang = engCode ∧ mkRat 9 10 ≤ conf then some (lang, conf) else scanTop rest) = _
    by_cases h : lang = engCode ∧ mkRat 9 10 ≤ conf
    · rw [if_pos h]
      exact (List.find?_cons_of_pos rest (by simpa using h)).symm
    · rw [if_neg h, ih]
      exact (List.find?_cons_of_neg rest (by simpa using h)).symm

/-- Two rankings with the same first five candidates have the same head. -/
theorem head?_eq_of_take_eq {α : Type} {l l' : List α} (h : l.take 5 = l'.take 5) :
    l.head? = l'.head? := by
  cases l with
  | nil => cases l' with
    | nil => rfl
    | cons b m => simp [List.take] at h
  | cons a k => cases l' with
    | nil => simp [List.take] at h
    | cons b m =>
      simp only [List.take, List.cons.injEq] at h
      simp [h.1]

/-! ### Claim C1 -/

/-- Claim C1: for null/undefined/non-string input (`none`) and for every
empty or whitespace-only string, `detectNonEnglishText` returns `false`
and `isEnglish` returns `true`, for every options record, cache state,
dictionary, geo-term list and external identifier. -/
theorem claim1_trivial_inputs (dict : Str → Bool) (francAll : Str → List (Str × ℚ))
    (geoTerms : List Str) (o : DetectionOptions) (st : CacheState) :
    ((detectNonEnglishText dict francAll geoTerms none o st).1 = some false ∧
      (isEnglish dict francAll geoTerms none o st).1 = some true) ∧
    ∀ t : Str, jsTrim t = [] →
      (detectNonEnglishText dict francAll geoTerms (some t) o st).1 = some false ∧
      (isEnglish dict francAll geoTerms (some t) o st).1 = some true := by
  refine ⟨⟨rfl, rfl⟩, fun t ht => ?_⟩
  have hz : (jsTrim t).length = 0 := by rw [ht]; rfl
  constructor <;> simp [detectNonEnglishText, isEnglish, hz]

/-- Witness for C1 at the whitespace-only input `"   "`. -/
theorem claim1_trivial_inputs_witness :
    (detectNonEnglishText (fun _ => false) (fun _ => []) [] (some "   ".toList)
      defaultOptions emptyState).1 = some false ∧
    (isEnglish (fun _ => false) (fun _ => []) [] (some "   ".toList)
      defaultOptions emptyState).1 = some true :=
  (claim1_trivial_inputs (fun _ => false) (fun _ => []) [] defaultOptions emptyState).2
    "   ".toList (by decide)

/-! ### Claim C6 -/

/-- Claim C6: on a cache miss with a non-empty ranking, the trigram
analyzer returns the first of the top five candidates that is English with
confidence at least 0.9, and otherwise the top-ranked candidate; moreover
it scans only the first five candidates — any identifier agreeing on the
first five candidates yields the same outcome. -/
theorem claim6_franc_top5_policy (francAll : Str → List (Str × ℚ)) (s : Str)
    (c : FrancCache) (hmiss : mapGet c s = none) (hne : francAll s ≠ []) :
    (francLanguageAnalysis francAll s c).1 =
      some ((((francAll s).take 5).find?
        (fun p => decide (p.1 = engCode ∧ mkRat 9 10 ≤ p.2))).getD
          ((francAll s).headD (engCode, 0))) ∧
    ∀ g : Str → List (Str × ℚ), (g s).take 5 = (francAll s).take 5 →
      (francLanguageAnalysis g s c).1 = (francLanguageAnalysis francAll s c).1 := by
  have key : ∀ f : Str → List (Str × ℚ), f s ≠ [] →
      (francLanguageAnalysis f s c).1 =
        some (((f s).take 5).find?
          (fun p => decide (p.1 = engCode ∧ mkRat 9 10 ≤ p.2)) |>.getD ((f s).headD (engCode, 0))) := by
    intro f hf
    simp only [francLanguageAnalysis, hmiss, scanTop_eq_find]
    cases h5 : ((f s).take 5).find? (fun p => decide (p.1 = engCode ∧ mkRat 9 10 ≤ p.2)) with
    | some p => simp [h5]
    | none =>
      cases hd : f s with
      | nil => exact absurd hd hf
      | cons p rest => simp [h5, hd]
  refine ⟨key francAll hne, fun g hg => ?_⟩
  have hgne : g s ≠ [] := by
    intro hnil
    rw [hnil] at hg
    cases hd : francAll s with
    | nil => exact hne hd
    | cons p rest => rw [hd] at hg; simp [List.take] at hg
  have hhd : (g s).headD (engCode, 0) = (francAll s).headD (engCode, 0) := by
    rw [List.headD_eq_head?_getD, List.headD_eq_head?_getD, head?_eq_of_take_eq hg]
  rw [key g hgne, key francAll hne, hg, hhd]

/-- Concrete identifier for the C6 witness: English ranked second with
confidence 0.95. -/
def francW6 : Str → List (Str × ℚ) :=
  fun _ => [("und".toList, 1), ("eng".toList, mkRat 19 20)]

/-- Witness for C6: the high-confidence English candidate ranked second is
returned. -/
theorem claim6_franc_top5_policy_witness :
    (francLanguageAnalysis francW6 "ja".toList []).1 = some ("eng".toList, mkRat 19 20) :=
  ((claim6_franc_top5_policy francW6 "ja".toList [] rfl (by decide)).1).trans (by decide)

/-! ### Claim C5

The claim states that the trigram analyzer is consulted on the
preprocessed (pre-tokenization) text.  The source binds
`francInputText = inputText` *before* preprocessing, so the analyzer
receives the raw input.  The counterexample exhibits two identifiers that
agree on the preprocessed text yet produce different detection results,
and shows the analyzer cache keyed by the raw input, which differs from
the preprocessed text. -/

/-- Raw input used for C5: the double space disappears in preprocessing,
and five of the seven words are in the dictionary (ratio 5/7 lies in
[0.7, 0.8), so the trigram rescue is decisive). -/
def rawC5 : Str := "aa  bb cc dd ee zz qq".toList

/-- Dictionary for the C5 scenario. -/
def dictC5 : Str → Bool :=
  fun w => w ∈ ["aa".toList, "bb".toList, "cc".toList, "dd".toList, "ee".toList]

/-- An identifier that always reports Undetermined. -/
def francUnd : Str → List (Str × ℚ) := fun _ => [("und".toList, 1)]

/-- An identifier reporting English only on the raw (unpreprocessed) C5
input. -/
def francA5 : Str → List (Str × ℚ) :=
  fun s => if s = rawC5 then [(engCode, 1)] else [("und".toList, 1)]

/-- An identifier reporting English only on the preprocessed C5 text. -/
def francB5 : Str → List (Str × ℚ) :=
  fun s => if s = preprocessText [] rawC5 none none then [(engCode, 1)]
    else [("und".toList, 1)]

/-- Counterexample to C5: two identifiers agreeing on the preprocessed
text give different detection results, the analyzer cache is keyed by the
raw input, and the raw input differs from the preprocessed text — so the
analyzer is invoked on the raw input, not on the preprocessed text. -/
theorem claim5_counterexample :
    francA5 (preprocessText [] rawC5 none none) =
      francUnd (preprocessText [] rawC5 none none) ∧
    (detectNonEnglishText dictC5 francA5 [] (some rawC5) defaultOptions emptyState).1 ≠
      (detectNonEnglishText dictC5 francUnd [] (some rawC5) defaultOptions emptyState).1 ∧
    (detectNonEnglishText dictC5 francUnd [] (some rawC5) defaultOptions
      emptyState).2.francCache = [(rawC5, ("und".toList, 1))] ∧
    rawC5 ≠ preprocessText [] rawC5 none none :=
  ⟨by decide, by decide, by decide, by decide⟩

/-- Claim C5 (amended): the Decision Engine consults the trigram analyzer
on the original raw input text captured before preprocessing — the whole
result (value and caches) depends on the external identifier only through
its value at the raw input string. -/
theorem claim5_franc_on_raw_input (dict : Str → Bool)
    (f1 f2 : Str → List (Str × ℚ)) (geoTerms : List Str) (t : Str)
    (o : DetectionOptions) (st : CacheState) (hf : f1 t = f2 t) :
    detectNonEnglishText dict f1 geoTerms (some t) o st =
      detectNonEnglishText dict f2 geoTerms (some t) o st := by
  unfold detectNonEnglishText detectCore francDecision francLanguageAnalysis
  simp only [hf]

/-- Witness for the amended C5: changing the identifier's answer at the
preprocessed text (while keeping its answer at the raw input) does not
change the result. -/
theorem claim5_franc_on_raw_input_witness :
    detectNonEnglishText dictC5 francUnd [] (some rawC5) defaultOptions emptyState =
      detectNonEnglishText dictC5 francB5 [] (some rawC5) defaultOptions emptyState :=
  claim5_franc_on_raw_input dictC5 francUnd francB5 [] rawC5 defaultOptions emptyState
    (by decide)

/-! ### Claim C7

The claim states that an empty ranking makes the engine fail closed
(return `true`).  In the source an empty ranking reaches
`const [language, confidence] = detectedLanguage[0]` with
`detectedLanguage[0] = undefined`, which throws a `TypeError` — no value
is returned at all. -/

/-- An identifier whose ranking is always empty. -/
def francEmpty : Str → List (Str × ℚ) := fun _ => []

/-- Raw input for the C7 scenario: five unknown words, ratio 0, so the
analyzer is consulted. -/
def rawC7 : Str := "zz qq rr ss tt".toList

/-- Counterexample to C7: with an empty ranking the engine throws
(`none`), it does not return `true`. -/
theorem claim7_counterexample :
    (detectNonEnglishText (fun _ => false) francEmpty [] (some rawC7) defaultOptions
      emptyState).1 = none ∧ (none : Option Bool) ≠ some true :=
  ⟨by decide, by decide⟩

/-- Claim C7 (amended): whenever the engine consults the analyzer (ratio
below the effective threshold, analyzer cache miss) and the external
identifier returns an empty ranking, `detectNonEnglishText` raises a
`TypeError` (modelled `none`) instead of returning a boolean. -/
theorem claim7_empty_ranking_raises (dict : Str → Bool)
    (francAll : Str → List (Str × ℚ)) (geoTerms : List Str) (t : Str)
    (o : DetectionOptions) (st : CacheState)
    (hg : ¬(t = [] ∨ (jsTrim t).length = 0))
    (hmiss : mapGet st.francCache t = none)
    (hempty : francAll t = [])
    (hlow : ratioOf (wordLoop dict (o.minWordLength.getD 2) (o.allowNumbers.getD true)
        (o.allowAbbreviations.getD true) st.wordCache
        (splitOnSpace (preprocessText geoTerms t o.customPatterns o.excludeWords))).1
        (wordLoop dict (o.minWordLength.getD 2) (o.allowNumbers.getD true)
        (o.allowAbbreviations.getD true) st.wordCache
        (splitOnSpace (preprocessText geoTerms t o.customPatterns o.excludeWords))).2.1 <
      effectiveThreshold (o.englishThreshold.getD (mkRat 4 5))
        (splitOnSpace (preprocessText geoTerms t o.customPatterns o.excludeWords)).length) :
    (detectNonEnglishText dict francAll geoTerms (some t) o st).1 = none := by
  simp only [detectNonEnglishText]
  rw [if_neg hg]
  have hw0 : ¬((splitOnSpace (preprocessText geoTerms t o.customPatterns
      o.excludeWords)).length = 0) := by
    intro h
    exact splitOnSpace_ne_nil _ (List.length_eq_zero.mp h)
  simp only [detectCore]
  rw [if_neg hw0, if_neg (not_le.mpr hlow)]
  simp only [francDecision, francLanguageAnalysis, hmiss, hempty]
  simp [scanTop]

/-- Witness for the amended C7 at a concrete scenario. -/
theorem claim7_empty_ranking_raises_witness :
    (detectNonEnglishText (fun _ => false) francEmpty [] (some rawC7) defaultOptions
      emptyState).1 = none :=
  claim7_empty_ranking_raises (fun _ => false) francEmpty [] rawC7 defaultOptions
    emptyState (by decide) (by decide) rfl (by decide)

/-! ### Claims C3 and C4 -/

/-- Claim C3: `detectNonEnglishText` is monotone in `englishThreshold` —
with all other option fields fixed, if the call with threshold `t1 ≤ t2`
reports non-English, then so does the call with threshold `t2`.  This
holds from any cache state. -/
theorem claim3_threshold_monotone (dict : Str → Bool)
    (francAll : Str → List (Str × ℚ)) (geoTerms : List Str) (t : Option Str)
    (o : DetectionOptions) (st : CacheState) (t1 t2 : ℚ) (hle : t1 ≤ t2)
    (h : (detectNonEnglishText dict francAll geoTerms t (withThreshold o t1) st).1 =
      some true) :
    (detectNonEnglishText dict francAll geoTerms t (withThreshold o t2) st).1 =
      some true := by
  cases t with
  | none => simp [detectNonEnglishText] at h
  | some s =>
    simp only [detectNonEnglishText] at h ⊢
    by_cases hg : s = [] ∨ (jsTrim s).length = 0
    · rw [if_pos hg] at h; simp at h
    · rw [if_neg hg] at h ⊢
      simp only [detectCore, withThreshold, Option.getD_some] at h ⊢
      set words := splitOnSpace (preprocessText geoTerms s o.customPatterns o.excludeWords)
        with hwords
      by_cases h0 : words.length = 0
      · rw [if_pos h0] at h; simp at h
      · rw [if_neg h0] at h ⊢
        set r := wordLoop dict (o.minWordLength.getD 2) (o.allowNumbers.getD true)
          (o.allowAbbreviations.getD true) st.wordCache words with hr
        set rat := ratioOf r.1 r.2.1 with hrat
        by_cases h4 : words.length ≤ 4
        · have e1 : effectiveThreshold t1 words.length = mkRat 3 5 := by
            unfold effectiveThreshold; rw [if_pos h4]
          have e2 : effectiveThreshold t2 words.length = mkRat 3 5 := by
            unfold effectiveThreshold; rw [if_pos h4]
          rw [e1] at h
          rw [e2]
          exact h
        · have e1 : effectiveThreshold t1 words.length = t1 := by
            unfold effectiveThreshold; rw [if_neg h4]
          have e2 : effectiveThreshold t2 words.length = t2 := by
            unfold effectiveThreshold; rw [if_neg h4]
          rw [e1] at h
          rw [e2]
          by_cases hc1 : t1 ≤ rat
          · rw [if_pos hc1] at h; simp at h
          · rw [if_neg hc1] at h
            have hc2 : ¬ t2 ≤ rat := fun hc => hc1 (hle.trans hc)
            rw [if_neg hc2]
            exact h

/-- Witness for C3: five unknown words are non-English at threshold 1/2,
hence also at threshold 9/10. -/
theorem claim3_threshold_monotone_witness :
    (detectNonEnglishText (fun _ => false) francUnd [] (some "zz yy xx ww vv".toList)
      (withThreshold defaultOptions (mkRat 9 10)) emptyState).1 = some true :=
  claim3_threshold_monotone (fun _ => false) francUnd [] (some "zz yy xx ww vv".toList)
    defaultOptions emptyState (mkRat 1 2) (mkRat 9 10) (by decide) (by decide)

/-- Claim C4: when the preprocessed text splits into at most four tokens,
the threshold compared with the english ratio is 0.6 regardless of the
configured `englishThreshold` — the whole call behaves exactly as if the
threshold had been configured to 0.6. -/
theorem claim4_short_input_uses_06 (dict : Str → Bool)
    (francAll : Str → List (Str × ℚ)) (geoTerms : List Str) (t : Str)
    (o : DetectionOptions) (st : CacheState)
    (hlen : (splitOnSpace (preprocessText geoTerms t o.customPatterns
      o.excludeWords)).length ≤ 4) :
    effectiveThreshold (o.englishThreshold.getD (mkRat 4 5))
      (splitOnSpace (preprocessText geoTerms t o.customPatterns
        o.excludeWords)).length = mkRat 3 5 ∧
    detectNonEnglishText dict francAll geoTerms (some t) o st =
      detectNonEnglishText dict francAll geoTerms (some t) (withThreshold o (mkRat 3 5)) st := by
  have he : ∀ q : ℚ, effectiveThreshold q
      (splitOnSpace (preprocessText geoTerms t o.customPatterns
        o.excludeWords)).length = mkRat 3 5 := by
    intro q; unfold effectiveThreshold; rw [if_pos hlen]
  refine ⟨he _, ?_⟩
  simp only [detectNonEnglishText]
  by_cases hg : t = [] ∨ (jsTrim t).length = 0
  · rw [if_pos hg, if_pos hg]
  · rw [if_neg hg, if_neg hg]
    simp only [detectCore, withThreshold, Option.getD_some]
    rw [he, he]

/-- Witness for C4: a two-token input behaves identically under thresholds
0.99 (configured) and 0.6. -/
theorem claim4_short_input_uses_06_witness :
    effectiveThreshold ((withThreshold defaultOptions (mkRat 99 100)).englishThreshold.getD
        (mkRat 4 5))
      (splitOnSpace (preprocessText [] "aa bb".toList
        (withThreshold defaultOptions (mkRat 99 100)).customPatterns
        (withThreshold defaultOptions (mkRat 99 100)).excludeWords)).length = mkRat 3 5 ∧
    detectNonEnglishText dictC5 francUnd [] (some "aa bb".toList)
        (withThreshold defaultOptions (mkRat 99 100)) emptyState =
      detectNonEnglishText dictC5 francUnd [] (some "aa bb".toList)
        (withThreshold (withThreshold defaultOptions (mkRat 99 100)) (mkRat 3 5)) emptyState :=
  claim4_short_input_uses_06 dictC5 francUnd [] "aa bb".toList
    (withThreshold defaultOptions (mkRat 99 100)) emptyState (by decide)

/-! ### Claim C8: cache capacity and eviction -/

/-- One cache operation of the bounded-cache contract. -/
inductive CacheOp (α β : Type) where
  | set (k : α) (v : β)
  | clear
  | get (k : α)

/-- Apply one cache operation (`get` reads without mutating). -/
def applyOp {α β : Type} [DecidableEq α] (limit : Nat) (m : JSMap α β) :
    CacheOp α β → JSMap α β
  | CacheOp.set k v => cacheSet m limit k v
  | CacheOp.clear => []
  | CacheOp.get _ => m

/-- Run a sequence of cache operations from the empty cache. -/
def runOps {α β : Type} [DecidableEq α] (limit : Nat) (ops : List (CacheOp α β)) :
    JSMap α β :=
  ops.foldl (applyOp limit) []

/-- `mapSet` grows the map by at most one entry. -/
theorem length_mapSet_le {α β : Type} [DecidableEq α] (m : JSMap α β) (k : α) (v : β) :
    (mapSet m k v).length ≤ m.length + 1 := by
  unfold mapSet
  split
  · simp
  · simp

/-- Deleting the head key shrinks a map below its tail length. -/
theorem length_mapDelete_head {α β : Type} [DecidableEq α] (k0 : α) (v0 : β)
    (rest : JSMap α β) : (mapDelete ((k0, v0) :: rest) k0).length ≤ rest.length := by
  unfold mapDelete
  rw [List.filter_cons_of_neg (by simp)]
  exact List.length_filter_le _ _

/-- `cacheSet` never pushes a cache beyond its limit. -/
theorem length_cacheSet_le {α β : Type} [DecidableEq α] {m : JSMap α β} {limit : Nat}
    (hlim : 1 ≤ limit) (h : m.length ≤ limit) (k : α) (v : β) :
    (cacheSet m limit k v).length ≤ limit := by
  unfold cacheSet
  by_cases hc : limit ≤ m.length
  · cases m with
    | nil => simp at hc; omega
    | cons p rest =>
      simp only [if_pos hc, mapFirstKey, List.head?_cons, Option.map_some]
      calc (mapSet (mapDelete ((p.1, p.2) :: rest) p.1) k v).length
          ≤ (mapDelete ((p.1, p.2) :: rest) p.1).length + 1 := length_mapSet_le _ _ _
        _ ≤ rest.length + 1 := by
            have := length_mapDelete_head p.1 p.2 rest
            omega
        _ = ((p.1, p.2) :: rest).length := by simp
        _ ≤ limit := by simpa using h
  · simp only [if_neg hc]
    calc (mapSet m k v).length ≤ m.length + 1 := length_mapSet_le _ _ _
      _ ≤ limit := by omega

/-- Any operation sequence keeps the cache within its limit. -/
theorem runOps_length_le {α β : Type} [DecidableEq α] {limit : Nat} (hlim : 1 ≤ limit)
    (ops : List (CacheOp α β)) : (runOps limit ops).length ≤ limit := by
  suffices hgen : ∀ (m : JSMap α β), m.length ≤ limit →
      (ops.foldl (applyOp limit) m).length ≤ limit by
    exact hgen [] (by simp)
  induction ops with
  | nil => intro m hm; simpa using hm
  | cons op rest ih =>
    intro m hm
    simp only [List.foldl_cons]
    apply ih
    cases op with
    | set k v => exact length_cacheSet_le hlim hm k v
    | clear => simp [applyOp]
    | get k => exact hm

/-- A cached word lookup keeps the word cache within its limit. -/
theorem isEnglishWordCached_cache_le (dict : Str → Bool) (w : Str) (o : WordOptions)
    {wc : WordCache} (h : wc.length ≤ WORD_CACHE_LIMIT) :
    (isEnglishWordCached dict w o wc).2.length ≤ WORD_CACHE_LIMIT := by
  simp only [isEnglishWordCached]
  cases hm : mapGet wc (mkKey w o.allowNumbers o.allowAbbreviations) with
  | some b => exact h
  | none => exact length_cacheSet_le (by unfold WORD_CACHE_LIMIT; omega) h _ _

/-- One word-loop step keeps the word cache within its limit. -/
theorem processWordStep_cache_le (dict : Str → Bool) (minLen : Nat) (aN aA : Bool)
    (acc : Nat × Nat × WordCache) (w : Str)
    (h : acc.2.2.length ≤ WORD_CACHE_LIMIT) :
    (processWordStep dict minLen aN aA acc w).2.2.length ≤ WORD_CACHE_LIMIT := by
  simp only [processWordStep]
  split
  · exact h
  · split
    · exact h
    · split
      · exact isEnglishWordCached_cache_le dict _ _ h
      · exact isEnglishWordCached_cache_le dict _ _ h

/-- The word loop keeps the word cache within its limit. -/
theorem wordLoop_cache_le (dict : Str → Bool) (minLen : Nat) (aN aA : Bool)
    (words : List Str) :
    ∀ (acc : Nat × Nat × WordCache), acc.2.2.length ≤ WORD_CACHE_LIMIT →
      (words.foldl (processWordStep dict minLen aN aA) acc).2.2.length ≤ WORD_CACHE_LIMIT := by
  induction words with
  | nil => intro acc h; simpa using h
  | cons w ws ih =>
    intro acc h
    simp only [List.foldl_cons]
    exact ih _ (processWordStep_cache_le dict minLen aN aA acc w h)

/-- The trigram analyzer keeps its cache within its limit. -/
theorem francLA_cache_le (francAll : Str → List (Str × ℚ)) (s : Str) {fc : FrancCache}
    (h : fc.length ≤ FRANC_CACHE_LIMIT) :
    (francLanguageAnalysis francAll s fc).2.length ≤ FRANC_CACHE_LIMIT := by
  simp only [francLanguageAnalysis]
  cases hm : mapGet fc s with
  | some v => exact h
  | none =>
    cases h5 : scanTop ((francAll s).take 5) with
    | some p => exact length_cacheSet_le (by unfold FRANC_CACHE_LIMIT; omega) h _ _
    | none =>
      cases hd : francAll s with
      | nil => exact h
      | cons p rest => exact length_cacheSet_le (by unfold FRANC_CACHE_LIMIT; omega) h _ _

/-- The final cache state of `francDecision`: the analyzer's cache paired
with the word cache handed in. -/
theorem francDecision_state (francAll : Str → List (Str × ℚ)) (t : Str) (rat : ℚ)
    (fc : FrancCache) (wc : WordCache) :
    (francDecision francAll t rat fc wc).2 =
      ⟨(francLanguageAnalysis francAll t fc).2, wc⟩ := by
  unfold francDecision
  cases hfa : francLanguageAnalysis francAll t fc with
  | mk res fc' =>
    cases res with
    | none => rfl
    | some lr =>
      dsimp only
      split <;> rfl

/-- A detection call keeps both caches within their limits. -/
theorem detect_state_le (dict : Str → Bool) (francAll : Str → List (Str × ℚ))
    (geoTerms : List Str) (t : Option Str) (o : DetectionOptions) {st : CacheState}
    (hf : st.francCache.length ≤ FRANC_CACHE_LIMIT)
    (hw : st.wordCache.length ≤ WORD_CACHE_LIMIT) :
    (detectNonEnglishText dict francAll geoTerms t o st).2.francCache.length ≤
      FRANC_CACHE_LIMIT ∧
    (detectNonEnglishText dict francAll geoTerms t o st).2.wordCache.length ≤
      WORD_CACHE_LIMIT := by
  cases t with
  | none => exact ⟨hf, hw⟩
  | some s =>
    simp only [detectNonEnglishText]
    split
    · exact ⟨hf, hw⟩
    · simp only [detectCore]
      split
      · exact ⟨hf, hw⟩
      · have hwl := wordLoop_cache_le dict (o.minWordLength.getD 2) (o.allowNumbers.getD true)
          (o.allowAbbreviations.getD true)
          (splitOnSpace (preprocessText geoTerms s o.customPatterns o.excludeWords))
          (0, 0, st.wordCache) hw
        split
        · exact ⟨hf, hwl⟩
        · constructor
          · rw [francDecision_state]
            exact francLA_cache_le francAll s hf
          · rw [francDecision_state]
            exact hwl

/-- Every reachable cache state respects both capacity bounds. -/
theorem reachable_state_le (dict : Str → Bool) (francAll : Str → List (Str × ℚ))
    (geoTerms : List Str) (st : CacheState)
    (h : Reachable dict francAll geoTerms st) :
    st.francCache.length ≤ FRANC_CACHE_LIMIT ∧ st.wordCache.length ≤ WORD_CACHE_LIMIT := by
  induction h with
  | init => constructor <;> simp [emptyState, FRANC_CACHE_LIMIT, WORD_CACHE_LIMIT]
  | step t o s hs ih => exact detect_state_le dict francAll geoTerms t o ih.1 ih.2
  | clear s hs ih =>
    constructor <;> simp [clearLanguageDetectorCaches, FRANC_CACHE_LIMIT, WORD_CACHE_LIMIT]

/-- At capacity, `cacheSet` deletes exactly the earliest-inserted entry
(the head) and then inserts. -/
theorem cacheSet_at_capacity {α β : Type} [DecidableEq α] {limit : Nat} {k0 : α}
    {v0 : β} {rest : JSMap α β}
    (hnd : (((k0, v0) :: rest).map Prod.fst).Nodup)
    (hcap : limit ≤ ((k0, v0) :: rest).length) (k : α) (v : β) :
    cacheSet ((k0, v0) :: rest) limit k v = mapSet rest k v ∧
      rest.length + 1 = ((k0, v0) :: rest).length := by
  refine ⟨?_, by simp⟩
  have hdel : mapDelete ((k0, v0) :: rest) k0 = rest := by
    unfold mapDelete
    rw [List.filter_cons_of_neg (by simp)]
    have hnotin : k0 ∉ rest.map Prod.fst := by
      simp only [List.map_cons, List.nodup_cons] at hnd
      exact hnd.1
    apply List.filter_eq_self.mpr
    intro q hq
    simp only [ne_eq, decide_eq_true_eq]
    intro hq1
    exact hnotin (hq1 ▸ List.mem_map_of_mem Prod.fst hq)
  unfold cacheSet
  rw [if_pos hcap]
  show mapSet (mapDelete ((k0, v0) :: rest) k0) k v = mapSet rest k v
  rw [hdel]

/-- Claim C8: for every sequence of cache operations the trigram cache
never exceeds 1000 entries and the word cache never exceeds 5000 entries
(likewise for every cache state reachable through the public detection
API); and whenever a `set` hits a cache at or above capacity, exactly one
entry — the earliest-inserted one still present, independent of later
accesses (`get` does not reorder) — is evicted before the new entry is
inserted. -/
theorem claim8_cache_capacity_and_fifo_eviction :
    (∀ ops : List (CacheOp Str (Str × ℚ)),
      (runOps FRANC_CACHE_LIMIT ops).length ≤ FRANC_CACHE_LIMIT) ∧
    (∀ ops : List (CacheOp Str Bool),
      (runOps WORD_CACHE_LIMIT ops).length ≤ WORD_CACHE_LIMIT) ∧
    (∀ (dict : Str → Bool) (francAll : Str → List (Str × ℚ)) (geoTerms : List Str)
      (st : CacheState), Reachable dict francAll geoTerms st →
      st.francCache.length ≤ FRANC_CACHE_LIMIT ∧
      st.wordCache.length ≤ WORD_CACHE_LIMIT) ∧
    (∀ (β : Type) (limit : Nat) (k0 : Str) (v0 : β) (rest : JSMap Str β) (k : Str) (v : β),
      (((k0, v0) :: rest).map Prod.fst).Nodup → limit ≤ ((k0, v0) :: rest).length →
      cacheSet ((k0, v0) :: rest) limit k v = mapSet rest k v ∧
        rest.length + 1 = ((k0, v0) :: rest).length) := by
  refine ⟨fun ops => runOps_length_le (by unfold FRANC_CACHE_LIMIT; omega) ops,
    fun ops => runOps_length_le (by unfold WORD_CACHE_LIMIT; omega) ops,
    reachable_state_le,
    fun β limit k0 v0 rest k v hnd hcap => cacheSet_at_capacity hnd hcap k v⟩

/-- Witness for C8: a capacity-1 cache holding `aa` evicts it when `bb`
arrives, and the empty reachable state is within bounds. -/
theorem claim8_cache_capacity_and_fifo_eviction_witness :
    (cacheSet [("aa".toList, false)] 1 "bb".toList true =
        mapSet [] "bb".toList true ∧ (0 : Nat) + 1 = 1) ∧
    (emptyState.francCache.length ≤ FRANC_CACHE_LIMIT ∧
      emptyState.wordCache.length ≤ WORD_CACHE_LIMIT) := by
  have h := claim8_cache_capacity_and_fifo_eviction
  refine ⟨?_, h.2.2.1 (fun _ => false) francUnd [] emptyState Reachable.init⟩
  have h4 := h.2.2.2 Bool 1 "aa".toList false [] "bb".toList true (by decide) (by decide)
  simpa using h4

/-! ### Claim C2: the caches are pure memoization

Each cache entry stores exactly the value the corresponding pure function
computes (`Coherent`); coherence holds in every reachable state and makes
`detectNonEnglishText` return the cache-free value `detectPure`. -/

/-- A successful `mapGet` wraps an entry of the map. -/
theorem mapGet_mem {α β : Type} [DecidableEq α] {m : JSMap α β} {k : α} {v : β}
    (h : mapGet m k = some v) : (k, v) ∈ m := by
  unfold mapGet at h
  cases hf : m.find? (fun p => p.1 = k) with
  | none => rw [hf] at h; simp at h
  | some q =>
    rw [hf] at h
    have hm := List.mem_of_find?_eq_some hf
    have hq : q.1 = k := by simpa using List.find?_some hf
    have hv : q.2 = v := by simpa using h
    have hqe : q = (k, v) := Prod.ext hq hv
    rwa [hqe] at hm

/-- Every entry of `mapSet m k v` is an old entry or the new pair. -/
theorem mem_mapSet {α β : Type} [DecidableEq α] {m : JSMap α β} {k : α} {v : β}
    {p : α × β} (h : p ∈ mapSet m k v) : p ∈ m ∨ p = (k, v) := by
  unfold mapSet at h
  split at h
  · obtain ⟨q, hq, he⟩ := List.mem_map.mp h
    by_cases hqk : q.1 = k
    · right; rw [← he]; simp [hqk]
    · left
      rw [← he]
      simpa [hqk] using hq
  · rcases List.mem_append.mp h with hh | hh
    · left; exact hh
    · right; simpa using hh

/-- Every entry of `cacheSet m limit k v` is an old entry or the new pair. -/
theorem mem_cacheSet {α β : Type} [DecidableEq α] {m : JSMap α β} {limit : Nat}
    {k : α} {v : β} {p : α × β} (h : p ∈ cacheSet m limit k v) : p ∈ m ∨ p = (k, v) := by
  simp only [cacheSet] at h
  rcases mem_mapSet h with hh | hh
  · left
    split at hh
    · split at hh
      · exact List.mem_of_mem_filter hh
      · exact hh
    · exact hh
  · right; exact hh

/-- The composite word-cache key decomposes uniquely into its three
components: `true`/`false` is recovered from the reversed tail, then the
word. -/
theorem mkKey_inj {w1 w2 : Str} {a1 b1 a2 b2 : Bool}
    (h : mkKey w1 a1 b1 = mkKey w2 a2 b2) : w1 = w2 ∧ a1 = a2 ∧ b1 = b2 := by
  have h' := congrArg List.reverse h
  cases a1 <;> cases b1 <;> cases a2 <;> cases b2 <;>
    simp [mkKey, boolStr, List.reverse_append] at h' <;>
    simp_all

/-- Word-cache coherence: every stored verdict equals the pure verdict of
the key's components. -/
def WordCoherent (dict : Str → Bool) (wc : WordCache) : Prop :=
  ∀ p ∈ wc, ∀ (w : Str) (aN aA : Bool), p.1 = mkKey w aN aA →
    p.2 = isEnglishWord dict w ⟨aN, aA⟩

/-- Trigram-cache coherence: every stored result equals the pure analyzer
value at the key. -/
def FrancCoherent (francAll : Str → List (Str × ℚ)) (fc : FrancCache) : Prop :=
  ∀ p ∈ fc, francPure francAll p.1 = some p.2

/-- Coherence of the full cache state. -/
def Coherent (dict : Str → Bool) (francAll : Str → List (Str × ℚ))
    (st : CacheState) : Prop :=
  WordCoherent dict st.wordCache ∧ FrancCoherent francAll st.francCache

/-- Unfolding `francPure` under a failed top-five scan. -/
theorem francPure_of_scanTop_none {francAll : Str → List (Str × ℚ)} {s : Str}
    (h5 : scanTop ((francAll s).take 5) = none) :
    francPure francAll s = (francAll s).head? := by
  unfold francPure; rw [h5]

/-- Unfolding `francPure` under a successful top-five scan. -/
theorem francPure_of_scanTop_some {francAll : Str → List (Str × ℚ)} {s : Str}
    {p : Str × ℚ} (h5 : scanTop ((francAll s).take 5) = some p) :
    francPure francAll s = some p := by
  unfold francPure; rw [h5]

/-- On a coherent cache the analyzer returns the pure value and preserves
coherence. -/
theorem francLA_coherent (francAll : Str → List (Str × ℚ)) (s : Str) {fc : FrancCache}
    (hc : FrancCoherent francAll fc) :
    (francLanguageAnalysis francAll s fc).1 = francPure francAll s ∧
    FrancCoherent francAll (francLanguageAnalysis francAll s fc).2 := by
  simp only [francLanguageAnalysis]
  cases hm : mapGet fc s with
  | some v => exact ⟨(hc (s, v) (mapGet_mem hm)).symm, hc⟩
  | none =>
    cases h5 : scanTop ((francAll s).take 5) with
    | some p =>
      have hp := francPure_of_scanTop_some h5
      constructor
      · simpa using hp.symm
      · intro q hq
        rcases mem_cacheSet hq with hh | hh
        · exact hc q hh
        · rw [hh]
          exact hp
    | none =>
      have hp := francPure_of_scanTop_none h5
      cases hd : francAll s with
      | nil =>
        constructor
        · rw [hp, hd]; rfl
        · exact hc
      | cons p rest =>
        constructor
        · rw [hp, hd]; rfl
        · intro q hq
          rcases mem_cacheSet hq with hh | hh
          · exact hc q hh
          · rw [hh]
            show francPure francAll s = some p
            rw [hp, hd]; rfl

/-- On a coherent cache the cached word check returns the pure verdict and
preserves coherence. -/
theorem isEnglishWordCached_coherent (dict : Str → Bool) (w : Str) (o : WordOptions)
    {wc : WordCache} (hc : WordCoherent dict wc) :
    (isEnglishWordCached dict w o wc).1 = isEnglishWord dict w o ∧
    WordCoherent dict (isEnglishWordCached dict w o wc).2 := by
  simp only [isEnglishWordCached]
  cases hm : mapGet wc (mkKey w o.allowNumbers o.allowAbbreviations) with
  | some b =>
    constructor
    · have hb := hc (mkKey w o.allowNumbers o.allowAbbreviations, b) (mapGet_mem hm)
        w o.allowNumbers o.allowAbbreviations rfl
      simpa using hb
    · exact hc
  | none =>
    constructor
    · rfl
    · intro q hq
      rcases mem_cacheSet hq with hh | hh
      · exact hc q hh
      · intro w' aN' aA' hkey
        rw [hh] at hkey ⊢
        simp only at hkey
        obtain ⟨hw, ha, hb⟩ := mkKey_inj hkey
        subst hw; subst ha; subst hb
        rfl

/-- One word-loop step on a coherent cache produces the pure counters and
preserves coherence. -/
theorem processWordStep_coherent (dict : Str → Bool) (minLen : Nat) (aN aA : Bool)
    (e t : Nat) {wc : WordCache} (hc : WordCoherent dict wc) (w : Str) :
    (processWordStep dict minLen aN aA (e, t, wc) w).1 =
      (processWordPureStep dict minLen aN aA (e, t) w).1 ∧
    (processWordStep dict minLen aN aA (e, t, wc) w).2.1 =
      (processWordPureStep dict minLen aN aA (e, t) w).2 ∧
    WordCoherent dict (processWordStep dict minLen aN aA (e, t, wc) w).2.2 := by
  simp only [processWordStep, processWordPureStep]
  split
  · exact ⟨rfl, rfl, hc⟩
  · split
    · exact ⟨rfl, rfl, hc⟩
    · have hcw := isEnglishWordCached_coherent dict
        (List.map jsToLower (jsTrim (List.filter (fun c => !wordPunctChars.contains c) w)))
        ⟨aN, aA⟩ hc
      rw [hcw.1]
      by_cases hb : isEnglishWord dict
          (List.map jsToLower (jsTrim (List.filter (fun c => !wordPunctChars.contains c) w)))
          ⟨aN, aA⟩ = true
      · simp only [if_pos hb]
        exact ⟨trivial, trivial, hcw.2⟩
      · simp only [if_neg hb]
        exact ⟨trivial, trivial, hcw.2⟩

/-- The word loop on a coherent cache produces the pure counters and
preserves coherence. -/
theorem wordLoop_coherent (dict : Str → Bool) (minLen : Nat) (aN aA : Bool)
    (words : List Str) {wc : WordCache} (hc : WordCoherent dict wc) :
    (wordLoop dict minLen aN aA wc words).1 = (wordLoopPure dict minLen aN aA words).1 ∧
    (wordLoop dict minLen aN aA wc words).2.1 =
      (wordLoopPure dict minLen aN aA words).2 ∧
    WordCoherent dict (wordLoop dict minLen aN aA wc words).2.2 := by
  have hgen : ∀ (ws : List Str) (e t : Nat) (wc' : WordCache), WordCoherent dict wc' →
      (ws.foldl (processWordStep dict minLen aN aA) (e, t, wc')).1 =
        (ws.foldl (processWordPureStep dict minLen aN aA) (e, t)).1 ∧
      (ws.foldl (processWordStep dict minLen aN aA) (e, t, wc')).2.1 =
        (ws.foldl (processWordPureStep dict minLen aN aA) (e, t)).2 ∧
      WordCoherent dict (ws.foldl (processWordStep dict minLen aN aA) (e, t, wc')).2.2 := by
    intro ws
    induction ws with
    | nil => intro e t wc' hc'; exact ⟨rfl, rfl, hc'⟩
    | cons w rest ih =>
      intro e t wc' hc'
      simp only [List.foldl_cons]
      obtain ⟨h1, h2, h3⟩ := processWordStep_coherent dict minLen aN aA e t hc' w
      have hpair : ((processWordStep dict minLen aN aA (e, t, wc') w).1,
          (processWordStep dict minLen aN aA (e, t, wc') w).2.1) =
          processWordPureStep dict minLen aN aA (e, t) w := Prod.ext h1 h2
      rw [← hpair]
      exact ih _ _ _ h3
  exact hgen words 0 0 wc hc

/-- On a coherent cache state, `detectNonEnglishText` returns the
cache-free value and leaves a coherent state. -/
theorem detect_coherent (dict : Str → Bool) (francAll : Str → List (Str × ℚ))
    (geoTerms : List Str) (t : Option Str) (o : DetectionOptions) {st : CacheState}
    (hc : Coherent dict francAll st) :
    (detectNonEnglishText dict francAll geoTerms t o st).1 =
      detectPure dict francAll geoTerms t o ∧
    Coherent dict francAll (detectNonEnglishText dict francAll geoTerms t o st).2 := by
  cases t with
  | none => exact ⟨rfl, hc⟩
  | some s =>
    simp only [detectNonEnglishText, detectPure]
    by_cases hg : s = [] ∨ (jsTrim s).length = 0
    · rw [if_pos hg, if_pos hg]; exact ⟨rfl, hc⟩
    · rw [if_neg hg, if_neg hg]
      simp only [detectCore]
      obtain ⟨hl1, hl2, hl3⟩ := wordLoop_coherent dict (o.minWordLength.getD 2)
        (o.allowNumbers.getD true) (o.allowAbbreviations.getD true)
        (splitOnSpace (preprocessText geoTerms s o.customPatterns o.excludeWords)) hc.1
      by_cases h0 : (splitOnSpace (preprocessText geoTerms s o.customPatterns
          o.excludeWords)).length = 0
      · rw [if_pos h0, if_pos h0]; exact ⟨rfl, hc⟩
      · rw [if_neg h0, if_neg h0, hl1, hl2]
        by_cases hth : effectiveThreshold (o.englishThreshold.getD (mkRat 4 5))
            (splitOnSpace (preprocessText geoTerms s o.customPatterns
              o.excludeWords)).length ≤
            ratioOf (wordLoopPure dict (o.minWordLength.getD 2) (o.allowNumbers.getD true)
              (o.allowAbbreviations.getD true)
              (splitOnSpace (preprocessText geoTerms s o.customPatterns o.excludeWords))).1
              (wordLoopPure dict (o.minWordLength.getD 2) (o.allowNumbers.getD true)
              (o.allowAbbreviations.getD true)
              (splitOnSpace (preprocessText geoTerms s o.customPatterns o.excludeWords))).2
        · rw [if_pos hth, if_pos hth]
          exact ⟨rfl, hl3, hc.2⟩
        · rw [if_neg hth, if_neg hth]
          unfold francDecision
          obtain ⟨hf1, hf2⟩ := francLA_coherent francAll s hc.2
          cases hfa : francLanguageAnalysis francAll s st.francCache with
          | mk res fc' =>
            rw [hfa] at hf1 hf2
            have hres : res = francPure francAll s := hf1
            have hfc' : FrancCoherent francAll fc' := hf2
            rw [← hres]
            cases res with
            | none => exact ⟨rfl, hl3, hfc'⟩
            | some lr =>
              dsimp only
              by_cases hcnd : lr.1 = engCode ∧ mkRat 9 10 ≤ lr.2 ∧ mkRat 7 10 ≤
                  ratioOf (wordLoopPure dict (o.minWordLength.getD 2)
                    (o.allowNumbers.getD true) (o.allowAbbreviations.getD true)
                    (splitOnSpace (preprocessText geoTerms s o.customPatterns
                      o.excludeWords))).1
                    (wordLoopPure dict (o.minWordLength.getD 2)
                    (o.allowNumbers.getD true) (o.allowAbbreviations.getD true)
                    (splitOnSpace (preprocessText geoTerms s o.customPatterns
                      o.excludeWords))).2
              · rw [if_pos hcnd, if_pos hcnd]
                exact ⟨rfl, hl3, hfc'⟩
              · rw [if_neg hcnd, if_neg hcnd]
                exact ⟨rfl, hl3, hfc'⟩

/-- The empty cache state is coherent. -/
theorem emptyState_coherent (dict : Str → Bool) (francAll : Str → List (Str × ℚ)) :
    Coherent dict francAll emptyState := by
  constructor
  · intro p hp; cases hp
  · intro p hp; cases hp

/-- Every reachable cache state is coherent. -/
theorem reachable_coherent (dict : Str → Bool) (francAll : Str → List (Str × ℚ))
    (geoTerms : List Str) {st : CacheState}
    (h : Reachable dict francAll geoTerms st) : Coherent dict francAll st := by
  induction h with
  | init => exact emptyState_coherent dict francAll
  | step t o s hs ih => exact (detect_coherent dict francAll geoTerms t o ih).2
  | clear s hs ih => exact emptyState_coherent dict francAll

/-- Claim C2: the caches are pure memoization.  From any two reachable
cache states the same call returns the same value; in particular calling
`detectNonEnglishText` twice in a row yields identical results, and
clearing the caches never changes the value of any subsequent call. -/
theorem claim2_caches_pure_memoization (dict : Str → Bool)
    (francAll : Str → List (Str × ℚ)) (geoTerms : List Str) (t : Option Str)
    (o : DetectionOptions) (s s' : CacheState)
    (hs : Reachable dict francAll geoTerms s)
    (hs' : Reachable dict francAll geoTerms s') :
    (detectNonEnglishText dict francAll geoTerms t o s).1 =
      (detectNonEnglishText dict francAll geoTerms t o s').1 ∧
    (detectNonEnglishText dict francAll geoTerms t o
        (detectNonEnglishText dict francAll geoTerms t o s).2).1 =
      (detectNonEnglishText dict francAll geoTerms t o s).1 ∧
    (detectNonEnglishText dict francAll geoTerms t o
        (clearLanguageDetectorCaches s)).1 =
      (detectNonEnglishText dict francAll geoTerms t o s).1 := by
  have key : ∀ (x : CacheState), Reachable dict francAll geoTerms x →
      (detectNonEnglishText dict francAll geoTerms t o x).1 =
        detectPure dict francAll geoTerms t o := by
    intro x hx
    exact (detect_coherent dict francAll geoTerms t o
      (reachable_coherent dict francAll geoTerms hx)).1
  refine ⟨?_, ?_, ?_⟩
  · rw [key s hs, key s' hs']
  · rw [key s hs, key _ (Reachable.step t o s hs)]
  · rw [key s hs, key _ (Reachable.clear s hs)]

/-- Witness for C2 at a concrete call from the empty state. -/
theorem claim2_caches_pure_memoization_witness :
    (detectNonEnglishText dictC5 francUnd [] (some rawC5) defaultOptions
        emptyState).1 =
      (detectNonEnglishText dictC5 francUnd [] (some rawC5) defaultOptions
        emptyState).1 ∧
    (detectNonEnglishText dictC5 francUnd [] (some rawC5) defaultOptions
        (detectNonEnglishText dictC5 francUnd [] (some rawC5) defaultOptions
          emptyState).2).1 =
      (detectNonEnglishText dictC5 francUnd [] (some rawC5) defaultOptions
        emptyState).1 ∧
    (detectNonEnglishText dictC5 francUnd [] (some rawC5) defaultOptions
        (clearLanguageDetectorCaches emptyState)).1 =
      (detectNonEnglishText dictC5 francUnd [] (some rawC5) defaultOptions
        emptyState).1 :=
  claim2_caches_pure_memoization dictC5 francUnd [] (some rawC5) defaultOptions
    emptyState emptyState Reachable.init Reachable.init

/-! ### Token machinery for claims C9 and C10

`\b`-delimited whole-word matching interacts with strings only through
their `\w`-token structure, so the two removal functions are
characterised by what they do to `tokens`. -/

/-- JavaScript whitespace is never a word character. -/
theorem isSpace_not_word {c : Char} (h : isSpaceJS c = true) : isWordChar c = false := by
  have hn : c.toNat = 32 ∨ c.toNat = 9 ∨ c.toNat = 10 ∨ c.toNat = 11 ∨ c.toNat = 12 ∨
      c.toNat = 13 ∨ c.toNat = 160 ∨ c.toNat = 5760 ∨
      (8192 ≤ c.toNat ∧ c.toNat ≤ 8202) ∨ c.toNat = 8232 ∨ c.toNat = 8233 ∨
      c.toNat = 8239 ∨ c.toNat = 8287 ∨ c.toNat = 12288 ∨ c.toNat = 65279 := by
    unfold isSpaceJS at h
    simp only [decide_eq_true_eq] at h
    rcases h with h | h
    · left; rw [h]; rfl
    · right; exact h
  unfold isWordChar
  simp only [decide_eq_false_iff_not]
  rintro (⟨h1, h2⟩ | ⟨h1, h2⟩ | ⟨h1, h2⟩ | he)
  · have g1 : 97 ≤ c.toNat := h1
    have g2 : c.toNat ≤ 122 := h2
    omega
  · have g1 : 65 ≤ c.toNat := h1
    have g2 : c.toNat ≤ 90 := h2
    omega
  · have g1 : 48 ≤ c.toNat := h1
    have g2 : c.toNat ≤ 57 := h2
    omega
  · have g : c.toNat = 95 := by rw [he]; rfl
    omega

/-- `takeWhile` runs through a fully satisfying prefix. -/
theorem takeWhile_append_all {p : Char → Bool} {u : Str} (v : Str)
    (hu : ∀ c ∈ u, p c = true) : (u ++ v).takeWhile p = u ++ v.takeWhile p := by
  induction u with
  | nil => simp
  | cons c u' ih =>
    have hc : p c = true := hu c (by simp)
    simp only [List.cons_append, List.takeWhile_cons, hc, if_true]
    rw [ih (fun x hx => hu x (by simp [hx]))]

/-- `dropWhile` skips a fully satisfying prefix. -/
theorem dropWhile_append_all {p : Char → Bool} {u : Str} (v : Str)
    (hu : ∀ c ∈ u, p c = true) : (u ++ v).dropWhile p = v.dropWhile p := by
  induction u with
  | nil => simp
  | cons c u' ih =>
    have hc : p c = true := hu c (by simp)
    simp only [List.cons_append, List.dropWhile_cons, hc, if_true]
    exact ih (fun x hx => hu x (by simp [hx]))

/-- `takeWhile` is empty when the head already fails. -/
theorem takeWhile_eq_nil_of_head {p : Char → Bool} {v : Str}
    (hv : ∀ d, v.head? = some d → p d = false) : v.takeWhile p = [] := by
  cases v with
  | nil => rfl
  | cons d v' => simp [List.takeWhile_cons, hv d rfl]

/-- `dropWhile` keeps everything when the head already fails. -/
theorem dropWhile_eq_self_of_head {p : Char → Bool} {v : Str}
    (hv : ∀ d, v.head? = some d → p d = false) : v.dropWhile p = v := by
  cases v with
  | nil => rfl
  | cons d v' => simp [List.dropWhile_cons, hv d rfl]

/-- The head of a `dropWhile` result fails the predicate. -/
theorem head_dropWhile_false {p : Char → Bool} (l : Str) :
    ∀ d, (l.dropWhile p).head? = some d → p d = false := by
  induction l with
  | nil => intro d h; simp at h
  | cons c t ih =>
    intro d h
    by_cases hc : p c = true
    · rw [List.dropWhile_cons_of_pos hc] at h
      exact ih d h
    · rw [List.dropWhile_cons_of_neg hc] at h
      simp only [List.head?_cons, Option.some.injEq] at h
      rw [← h]
      simpa using hc

/-- Dropping the length of the `takeWhile` prefix is `dropWhile`. -/
theorem drop_length_takeWhile {p : Char → Bool} (l : Str) :
    l.drop (l.takeWhile p).length = l.dropWhile p := by
  induction l with
  | nil => rfl
  | cons c t ih =>
    by_cases hc : p c = true
    · simp only [List.takeWhile_cons, hc, if_true, List.length_cons, List.drop_succ_cons,
        List.dropWhile_cons_of_pos hc]
      exact ih
    · simp [List.takeWhile_cons, hc, List.dropWhile_cons_of_neg hc]

/-- A word run entering `tokensAux` is accumulated onto `cur`. -/
theorem tokensAux_word_run {u : Str} (hu : ∀ c ∈ u, isWordChar c = true) :
    ∀ (cur v : Str), tokensAux cur (u ++ v) = tokensAux (u.reverse ++ cur) v := by
  induction u with
  | nil => intro cur v; simp
  | cons c u' ih =>
    intro cur v
    have hc : isWordChar c = true := hu c (by simp)
    simp only [List.cons_append, tokensAux, hc, if_true, List.append_eq]
    rw [ih (fun x hx => hu x (by simp [hx])) (c :: cur) v]
    simp

/-- All-non-word strings have no tokens (accumulator form). -/
theorem tokensAux_all_nonword {l : Str} (h : ∀ c ∈ l, isWordChar c = false) :
    tokensAux [] l = [] := by
  induction l with
  | nil => rfl
  | cons c t ih =>
    have hc : isWordChar c = false := h c (by simp)
    simp only [tokensAux, hc, Bool.false_eq_true, if_false, if_pos rfl]
    exact ih (fun x hx => h x (by simp [hx]))

/-- A non-word head contributes no token. -/
theorem tokens_cons_nonword {c : Char} (hc : isWordChar c = false) (t : Str) :
    tokens (c :: t) = tokens t := by
  simp [tokens, tokensAux, hc]

/-- A leading maximal word run is exactly the first token. -/
theorem tokens_append_token {u v : Str} (hne : u ≠ [])
    (hu : ∀ c ∈ u, isWordChar c = true)
    (hv : ∀ d, v.head? = some d → isWordChar d = false) :
    tokens (u ++ v) = u :: tokens v := by
  unfold tokens
  rw [tokensAux_word_run hu [] v]
  cases v with
  | nil =>
    have hur : u.reverse ++ [] ≠ [] := by simpa using hne
    simp [tokensAux, hur, hne]
  | cons d v' =>
    have hd : isWordChar d = false := hv d rfl
    have hur : (u.reverse ++ ([] : Str)) = u.reverse := by simp
    rw [hur]
    have hune : u.reverse ≠ [] := by simpa using hne
    simp [tokensAux, hd, hune]

/-- All-non-word strings have no tokens. -/
theorem tokens_all_nonword {l : Str} (h : ∀ c ∈ l, isWordChar c = false) :
    tokens l = [] := tokensAux_all_nonword h

/-- Collapsing whitespace never changes the token structure
(accumulator-level statement; the flag being set implies the accumulator
is empty, which is how the scan actually runs). -/
theorem tokensAux_collapseWsAux : ∀ (s : Str) (b : Bool) (cur : Str),
    (b = true → cur = []) → tokensAux cur (collapseWsAux b s) = tokensAux cur s := by
  intro s
  induction s with
  | nil => intro b cur _; cases b <;> rfl
  | cons c t ih =>
    intro b cur hb
    by_cases hsp : isSpaceJS c = true
    · have hw : isWordChar c = false := isSpace_not_word hsp
      cases b with
      | true =>
        have hcur : cur = [] := hb rfl
        subst hcur
        simp only [collapseWsAux, hsp, if_true]
        rw [ih true [] (fun _ => rfl)]
        simp [tokensAux, hw]
      | false =>
        simp only [collapseWsAux, hsp, if_true, Bool.false_eq_true, if_false]
        have hsw : isWordChar ' ' = false := by decide
        by_cases hcur : cur = []
        · subst hcur
          simp only [tokensAux, hsw, hw, Bool.false_eq_true, if_false, if_pos rfl]
          exact ih true [] (fun _ => rfl)
        · simp only [tokensAux, hsw, hw, Bool.false_eq_true, if_false, if_neg hcur]
          rw [ih true [] (fun _ => rfl)]
    · have hsp' : isSpaceJS c = false := by simpa using hsp
      simp only [collapseWsAux, hsp', Bool.false_eq_true, if_false]
      by_cases hw : isWordChar c = true
      · simp only [tokensAux, hw, if_true]
        exact ih false (c :: cur) (by simp)
      · have hw' : isWordChar c = false := by simpa using hw
        by_cases hcur : cur = []
        · subst hcur
          simp only [tokensAux, hw', Bool.false_eq_true, if_false, if_pos rfl]
          exact ih false [] (by simp)
        · simp only [tokensAux, hw', Bool.false_eq_true, if_false, if_neg hcur]
          rw [ih false [] (by simp)]

/-- Collapsing whitespace preserves tokens. -/
theorem tokens_collapseWs (s : Str) : tokens (collapseWs s) = tokens s :=
  tokensAux_collapseWsAux s false [] (by simp)

/-- Dropping leading whitespace preserves tokens. -/
theorem tokens_dropWhile_space (l : Str) :
    tokens (l.dropWhile isSpaceJS) = tokens l := by
  induction l with
  | nil => rfl
  | cons c t ih =>
    by_cases hc : isSpaceJS c = true
    · rw [List.dropWhile_cons_of_pos hc, ih, tokens_cons_nonword (isSpace_not_word hc)]
    · rw [List.dropWhile_cons_of_neg (by simpa using hc)]

/-- A non-word suffix contributes no tokens (accumulator form). -/
theorem tokensAux_append_nonword : ∀ (y : Str) (cur : Str) {spl : Str},
    (∀ c ∈ spl, isWordChar c = false) → tokensAux cur (y ++ spl) = tokensAux cur y := by
  intro y
  induction y with
  | nil =>
    intro cur spl hsp
    cases hc : cur with
    | nil =>
      simp only [List.nil_append]
      rw [tokensAux_all_nonword hsp]
      rfl
    | cons a cur' =>
      simp only [List.nil_append]
      cases spl with
      | nil => rfl
      | cons d spl' =>
        have hd : isWordChar d = false := hsp d (by simp)
        simp only [tokensAux, hd, Bool.false_eq_true, if_false]
        rw [if_neg (by simp)]
        rw [tokensAux_all_nonword (fun x hx => hsp x (by simp [hx]))]
        rfl
  | cons c y' ih =>
    intro cur spl hsp
    by_cases hw : isWordChar c = true
    · simp only [List.cons_append, tokensAux, hw, if_true, List.append_eq]
      exact ih (c :: cur) hsp
    · have hw' : isWordChar c = false := by simpa using hw
      by_cases hcur : cur = []
      · subst hcur
        simp only [List.cons_append, tokensAux, hw', Bool.false_eq_true, if_false,
          if_pos rfl, List.append_eq]
        exact ih [] hsp
      · simp only [List.cons_append, tokensAux, hw', Bool.false_eq_true, if_false,
          if_neg hcur, List.append_eq]
        rw [ih [] hsp]

/-- Trimming preserves tokens. -/
theorem tokens_jsTrim (s : Str) : tokens (jsTrim s) = tokens s := by
  unfold jsTrim
  set x := s.dropWhile isSpaceJS with hx
  have hdec : x = (x.reverse.dropWhile isSpaceJS).reverse ++
      (x.reverse.takeWhile isSpaceJS).reverse := by
    calc x = x.reverse.reverse := by simp
      _ = (x.reverse.takeWhile isSpaceJS ++ x.reverse.dropWhile isSpaceJS).reverse := by
          rw [List.takeWhile_append_dropWhile]
      _ = (x.reverse.dropWhile isSpaceJS).reverse ++
          (x.reverse.takeWhile isSpaceJS).reverse := by
          rw [List.reverse_append]
  have hsp : ∀ c ∈ (x.reverse.takeWhile isSpaceJS).reverse, isWordChar c = false := by
    intro c hc
    have hc' : c ∈ x.reverse.takeWhile isSpaceJS := by simpa using hc
    exact isSpace_not_word (List.mem_takeWhile_imp hc')
  have h1 : tokens x = tokens ((x.reverse.dropWhile isSpaceJS).reverse) := by
    conv_lhs => rw [hdec]
    exact tokensAux_append_nonword _ [] hsp
  rw [← h1]
  exact tokens_dropWhile_space s

/-- Normalizing whitespace preserves tokens. -/
theorem tokens_normalizeWhitespace (s : Str) :
    tokens (normalizeWhitespace s) = tokens s := by
  unfold normalizeWhitespace
  rw [tokens_jsTrim, tokens_collapseWs]

/-! ### Characterising `altMatchAt` at token boundaries -/

/-- `ciEqStr` as canonical-map equality. -/
theorem ciEqStr_iff_map {a b : Str} :
    ciEqStr a b = true ↔ a.map canonJS = b.map canonJS := by
  unfold ciEqStr
  simp

/-- Case-insensitively equal strings have equal length. -/
theorem ciEqStr_length {a b : Str} (h : ciEqStr a b = true) : a.length = b.length := by
  have he := ciEqStr_iff_map.mp h
  simpa using congrArg List.length he

/-- A prefix test only looks at the first `w.length` characters. -/
theorem ciPref_append_left : ∀ (w u : Str) (v : Str), w.length ≤ u.length →
    ciPref w (u ++ v) = ciPref w u := by
  intro w
  induction w with
  | nil => intro u v _; rfl
  | cons p ps ih =>
    intro u v h
    cases u with
    | nil => simp at h
    | cons b u' =>
      simp only [List.cons_append, ciPref, List.append_eq]
      rw [ih u' v (by simpa using h)]

/-- An all-word-character pattern longer than the leading run cannot be a
prefix: it would have to continue into the non-word character after the
run. -/
theorem ciPref_not_long : ∀ (w : Str), (∀ x ∈ w, isWordChar x = true) →
    ∀ (u v : Str), u.length < w.length →
    (∀ d, v.head? = some d → isWordChar d = false) → ciPref w (u ++ v) = false := by
  intro w
  induction w with
  | nil => intro _ u v h _; simp at h
  | cons p ps ih =>
    intro hww u v hlen hv
    cases u with
    | nil =>
      cases v with
      | nil => rfl
      | cons d v' =>
        have hd : isWordChar d = false := hv d rfl
        have hp : isWordChar p = true := hww p (by simp)
        have hcc : ciEqC p d = false := by
          by_contra hcc'
          have hcc2 : ciEqC p d = true := by simpa using hcc'
          have hwe := isWordChar_of_ciEqC hcc2
          rw [hp, hd] at hwe
          exact absurd hwe (by simp)
        simp [ciPref, hcc]
    | cons b u' =>
      simp only [List.cons_append, ciPref, List.append_eq]
      rw [ih (fun x hx => hww x (by simp [hx])) u' v (by simpa using hlen) hv]
      simp

/-- On equal lengths a prefix test is exactly case-insensitive equality. -/
theorem ciPref_eq_len_iff : ∀ (w u : Str), u.length = w.length →
    (ciPref w u = true ↔ u.map canonJS = w.map canonJS) := by
  intro w
  induction w with
  | nil =>
    intro u h
    cases u with
    | nil => simp [ciPref]
    | cons b u' => simp at h
  | cons p ps ih =>
    intro u h
    cases u with
    | nil => simp at h
    | cons b u' =>
      simp only [ciPref, Bool.and_eq_true, List.map_cons, List.cons.injEq]
      rw [ih u' (by simpa using h)]
      unfold ciEqC
      constructor
      · rintro ⟨h1, h2⟩
        exact ⟨by simpa using (beq_iff_eq.mp h1).symm, h2⟩
      · rintro ⟨h1, h2⟩
        exact ⟨by simpa using h1.symm, h2⟩

/-- A non-word character at the scan position defeats every all-word
alternative. -/
theorem altMatchAt_nonword_head (alts : List Str)
    (hw : ∀ w ∈ alts, w ≠ [] ∧ ∀ x ∈ w, isWordChar x = true)
    {c : Char} (hc : isWordChar c = false) (prev : Option Char) (t : Str) :
    altMatchAt alts prev (c :: t) = none := by
  unfold altMatchAt
  rw [List.findSome?_eq_none_iff]
  intro w hwmem
  rw [if_neg]
  rintro ⟨hne, hpref, -, -⟩
  cases w with
  | nil => exact hne rfl
  | cons p ps =>
    simp only [ciPref, Bool.and_eq_true] at hpref
    have hwe := isWordChar_of_ciEqC hpref.1
    have hp : isWordChar p = true := (hw _ hwmem).2 p (by simp)
    rw [hp, hc] at hwe
    exact absurd hwe (by simp)

/-- Inside a word run (word character on both sides of the position) no
`\b` can start a match. -/
theorem altMatchAt_interior (alts : List Str) {p c : Char}
    (hp : isWordChar p = true) (hc : isWordChar c = true) (t : Str) :
    altMatchAt alts (some p) (c :: t) = none := by
  unfold altMatchAt
  rw [List.findSome?_eq_none_iff]
  intro w hwmem
  rw [if_neg]
  rintro ⟨-, -, hb, -⟩
  unfold bAt isWordOpt at hb
  rw [List.head?_cons] at hb
  simp only [hp, hc] at hb
  simp at hb

/-- A non-empty all-word list has a word character as `getLast?`. -/
theorem getLast?_word {l : Str} (hne : l ≠ []) (hl : ∀ x ∈ l, isWordChar x = true) :
    isWordOpt l.getLast? = true := by
  rw [List.getLast?_eq_getLast l hne]
  exact hl _ (List.getLast_mem hne)

/-- The single-alternative matching condition at a token start holds
exactly for alternatives case-insensitively equal to the full token. -/
theorem altCond_iff_token {w : Str} (hww : ∀ x ∈ w, isWordChar x = true)
    (hwne : w ≠ []) {prev : Option Char} (hprev : isWordOpt prev = false)
    {tok rest : Str} (htokne : tok ≠ []) (htok : ∀ x ∈ tok, isWordChar x = true)
    (hrest : ∀ d, rest.head? = some d → isWordChar d = false) :
    (w ≠ [] ∧ ciPref w (tok ++ rest) ∧ bAt prev (tok ++ rest).head? ∧
      bAt ((tok ++ rest).take w.length).getLast? ((tok ++ rest).drop w.length).head?) ↔
    ciEqStr tok w = true := by
  have hwpos : 0 < w.length := List.length_pos.mpr hwne
  have htokpos : 0 < tok.length := List.length_pos.mpr htokne
  constructor
  · rintro ⟨-, hpref, -, hbr⟩
    rcases Nat.lt_trichotomy w.length tok.length with hlt | heq | hgt
    · exfalso
      have htake : (tok ++ rest).take w.length = tok.take w.length :=
        List.take_append_of_le_length (Nat.le_of_lt hlt)
      have hdrop : (tok ++ rest).drop w.length = tok.drop w.length ++ rest := by
        rw [List.drop_append_of_le_length (Nat.le_of_lt hlt)]
      have hlast : isWordOpt ((tok ++ rest).take w.length).getLast? = true := by
        rw [htake]
        apply getLast?_word
        · intro hnil
          have hlen0 : (tok.take w.length).length = 0 := by rw [hnil]; rfl
          rw [List.length_take] at hlen0
          omega
        · intro x hx
          exact htok x (List.mem_of_mem_take hx)
      have hdropne : tok.drop w.length ≠ [] := by
        intro hnil
        have := congrArg List.length hnil
        simp at this
        omega
      have hhead : isWordOpt ((tok ++ rest).drop w.length).head? = true := by
        rw [hdrop]
        cases hh : (tok.drop w.length ++ rest).head? with
        | none =>
          have := List.head?_eq_none_iff.mp hh
          rcases List.append_eq_nil.mp this with ⟨h1, -⟩
          exact absurd h1 hdropne
        | some d =>
          have hd : d ∈ tok.drop w.length ++ rest := List.mem_of_mem_head? hh
          rcases List.mem_append.mp hd with hd1 | hd1
          · exact htok d (List.mem_of_mem_drop hd1)
          · -- impossible: head of (nonempty ++ rest) lies in the first part
            cases hdd : tok.drop w.length with
            | nil => exact absurd hdd hdropne
            | cons a l' =>
              rw [hdd] at hh
              simp only [List.cons_append, List.head?_cons, Option.some.injEq] at hh
              subst hh
              exact htok a (List.mem_of_mem_drop (by rw [hdd]; simp))
      rw [bAt, hlast, hhead] at hbr
      simp at hbr
    · rw [ciPref_append_left w tok rest (Nat.le_of_eq heq)] at hpref
      rw [ciEqStr_iff_map]
      exact (ciPref_eq_len_iff w tok heq.symm).mp hpref
    · exfalso
      rw [ciPref_not_long w hww tok rest hgt hrest] at hpref
      simp at hpref
  · intro hci
    have hlen : tok.length = w.length := ciEqStr_length hci
    refine ⟨hwne, ?_, ?_, ?_⟩
    · rw [ciPref_append_left w tok rest (Nat.le_of_eq hlen.symm)]
      exact (ciPref_eq_len_iff w tok hlen).mpr (ciEqStr_iff_map.mp hci)
    · cases tok with
      | nil => exact absurd rfl htokne
      | cons a l' =>
        have ha : isWordChar a = true := htok a (by simp)
        rw [List.cons_append, List.head?_cons]
        unfold bAt
        have h2 : isWordOpt (some a) = true := ha
        rw [hprev, h2]
        rfl
    · have htake : (tok ++ rest).take w.length = tok := by
        rw [List.take_append_of_le_length (Nat.le_of_eq hlen.symm), ← hlen,
          List.take_length]
      have hdrop : (tok ++ rest).drop w.length = rest := by
        rw [List.drop_append_of_le_length (Nat.le_of_eq hlen.symm), ← hlen,
          List.drop_length]
        simp
      rw [htake, hdrop]
      unfold bAt
      rw [getLast?_word htokne htok]
      cases hh : rest.head? with
      | none => simp [isWordOpt]
      | some d =>
        simp only [isWordOpt, hrest d hh]
        simp

/-- At a token start, `altMatchAt` succeeds (with the token's length) iff
some alternative equals the token case-insensitively. -/
theorem altMatchAt_token (alts : List Str)
    (hw : ∀ w ∈ alts, w ≠ [] ∧ ∀ x ∈ w, isWordChar x = true)
    {prev : Option Char} (hprev : isWordOpt prev = false)
    {tok rest : Str} (htokne : tok ≠ []) (htok : ∀ x ∈ tok, isWordChar x = true)
    (hrest : ∀ d, rest.head? = some d → isWordChar d = false) :
    altMatchAt alts prev (tok ++ rest) =
      if alts.any (fun w => ciEqStr tok w) then some tok.length else none := by
  induction alts with
  | nil => rfl
  | cons w alts' ih =>
    unfold altMatchAt
    rw [List.findSome?_cons]
    have hcond := altCond_iff_token (hw w (by simp)).2 (hw w (by simp)).1 hprev
      htokne htok hrest
    by_cases hci : ciEqStr tok w = true
    · rw [if_pos (hcond.mpr hci)]
      have hlen : tok.length = w.length := ciEqStr_length hci
      rw [← hlen]
      have hany : (w :: alts').any (fun x => ciEqStr tok x) = true := by
        simp [List.any_cons, hci]
      rw [if_pos hany]
    · rw [if_neg (fun hcc => hci (hcond.mp hcc))]
      have hih := ih (fun x hx => hw x (by simp [hx]))
      unfold altMatchAt at hih
      rw [hih]
      have hany : (w :: alts').any (fun x => ciEqStr tok x) =
          alts'.any (fun x => ciEqStr tok x) := by
        simp [List.any_cons, hci]
      rw [hany]

/-! ### Token-level characterisation of the whole-word removers -/

/-- Scanning through a word run with a word character as left context finds
no match: every position is interior to the run. -/
theorem rmAllF_word_passage (alts : List Str) :
    ∀ (u : Str), (∀ x ∈ u, isWordChar x = true) →
    ∀ (p : Char), isWordChar p = true → ∀ (fuel : Nat), ∀ (rest : Str), u.length ≤ fuel →
    rmAllF alts fuel (some p) (u ++ rest) =
      u ++ rmAllF alts (fuel - u.length) (some (u.getLastD p)) rest := by
  intro u
  induction u with
  | nil => intro _ p _ fuel rest _; simp [List.getLastD]
  | cons a u' ih =>
    intro hu p hp fuel rest hfuel
    cases fuel with
    | zero => simp at hfuel
    | succ f =>
      have ha : isWordChar a = true := hu a (by simp)
      rw [List.cons_append]
      have hm := altMatchAt_interior alts hp ha (u' ++ rest)
      simp only [rmAllF, hm]
      rw [ih (fun x hx => hu x (by simp [hx])) a ha f rest (by simpa using hfuel)]
      rw [List.getLastD_cons]
      rw [List.cons_append, List.length_cons, Nat.succ_sub_succ]

/-- `rmAllF` keeps a non-word first character in place, so a head-safe
string stays head-safe. -/
theorem rmAllF_head_nonword (alts : List Str)
    (hwa : ∀ w ∈ alts, w ≠ [] ∧ ∀ x ∈ w, isWordChar x = true)
    (fuel : Nat) (prev : Option Char) (s : Str)
    (hs : ∀ d, s.head? = some d → isWordChar d = false) :
    ∀ d, (rmAllF alts fuel prev s).head? = some d → isWordChar d = false := by
  cases fuel with
  | zero => exact hs
  | succ f =>
    cases s with
    | nil => intro d h; simp [rmAllF] at h
    | cons c t =>
      have hc : isWordChar c = false := hs c rfl
      have hm := altMatchAt_nonword_head alts hwa hc prev t
      intro d h
      simp only [rmAllF, hm, List.head?_cons, Option.some.injEq] at h
      subst h
      exact hc

/-- Global whole-word removal at the token level: exactly the tokens
case-insensitively equal to one of the (all-word-character) alternatives
disappear; every other token survives unchanged and no new token is
created. -/
theorem tokens_rmAllF (alts : List Str)
    (hwa : ∀ w ∈ alts, w ≠ [] ∧ ∀ x ∈ w, isWordChar x = true) :
    ∀ (n : Nat) (s : Str) (prev : Option Char) (fuel : Nat),
    s.length ≤ n → s.length ≤ fuel →
    (isWordOpt prev = false ∨ ∀ d, s.head? = some d → isWordChar d = false) →
    tokens (rmAllF alts fuel prev s) =
      (tokens s).filter (fun tok => !(alts.any (fun w => ciEqStr tok w))) := by
  intro n
  induction n with
  | zero =>
    intro s prev fuel hn _ _
    have hnil : s = [] := List.eq_nil_of_length_eq_zero (Nat.le_zero.mp hn)
    subst hnil
    cases fuel <;> simp [rmAllF, tokens, tokensAux]
  | succ n ih =>
    intro s prev fuel hn hfuel hsafe
    cases s with
    | nil => cases fuel <;> simp [rmAllF, tokens, tokensAux]
    | cons c t =>
      cases fuel with
      | zero => simp at hfuel
      | succ f =>
        by_cases hc : isWordChar c = true
        · have hprev : isWordOpt prev = false := by
            rcases hsafe with h | h
            · exact h
            · rw [h c rfl] at hc; exact absurd hc (by simp)
          have hsplit : t.takeWhile isWordChar ++ t.dropWhile isWordChar = t :=
            List.takeWhile_append_dropWhile isWordChar t
          have htkw : ∀ x ∈ t.takeWhile isWordChar, isWordChar x = true :=
            fun x hx => List.mem_takeWhile_imp hx
          have htokw : ∀ x ∈ c :: t.takeWhile isWordChar, isWordChar x = true := by
            intro x hx
            rcases List.mem_cons.mp hx with h | h
            · subst h; exact hc
            · exact htkw x h
          have hrsafe : ∀ d, (t.dropWhile isWordChar).head? = some d →
              isWordChar d = false := fun d hd => head_dropWhile_false t d hd
          have hshape : c :: t = (c :: t.takeWhile isWordChar) ++ t.dropWhile isWordChar := by
            rw [List.cons_append, hsplit]
          have hmatch := altMatchAt_token alts hwa hprev
            (List.cons_ne_nil c (t.takeWhile isWordChar)) htokw hrsafe
          have hlent : (t.takeWhile isWordChar).length + (t.dropWhile isWordChar).length
              = t.length := by
            have h2 := congrArg List.length hsplit
            rw [List.length_append] at h2
            exact h2
          have htokens : tokens (c :: t) =
              (c :: t.takeWhile isWordChar) :: tokens (t.dropWhile isWordChar) := by
            rw [hshape]
            exact tokens_append_token (List.cons_ne_nil _ _) htokw hrsafe
          by_cases hany :
              alts.any (fun w => ciEqStr (c :: t.takeWhile isWordChar) w) = true
          · rw [if_pos hany] at hmatch
            have hmc : altMatchAt alts prev (c :: t) =
                some (c :: t.takeWhile isWordChar).length := by rw [hshape]; exact hmatch
            simp only [rmAllF, hmc]
            have htake : (c :: t).take (c :: t.takeWhile isWordChar).length =
                c :: t.takeWhile isWordChar := by
              rw [hshape]; exact List.take_left _ _
            have hdrop : (c :: t).drop (c :: t.takeWhile isWordChar).length =
                t.dropWhile isWordChar := by
              rw [hshape]; exact List.drop_left _ _
            rw [htake, hdrop]
            rw [ih (t.dropWhile isWordChar) _ f (by simp at hn; omega)
              (by simp at hfuel; omega) (Or.inr hrsafe)]
            rw [htokens]
            rw [List.filter_cons_of_neg (by simpa using hany)]
          · rw [if_neg (by simpa using hany)] at hmatch
            have hmc : altMatchAt alts prev (c :: t) = none := by rw [hshape]; exact hmatch
            simp only [rmAllF, hmc]
            have hpass := rmAllF_word_passage alts (t.takeWhile isWordChar) htkw c hc f
              (t.dropWhile isWordChar)
              (by simp at hfuel; omega)
            rw [hsplit] at hpass
            rw [hpass]
            have hrec := ih (t.dropWhile isWordChar)
              (some ((t.takeWhile isWordChar).getLastD c))
              (f - (t.takeWhile isWordChar).length) (by simp at hn; omega)
              (by simp at hfuel; omega) (Or.inr hrsafe)
            have hout : tokens (c :: (t.takeWhile isWordChar ++
                rmAllF alts (f - (t.takeWhile isWordChar).length)
                  (some ((t.takeWhile isWordChar).getLastD c))
                  (t.dropWhile isWordChar))) =
                (c :: t.takeWhile isWordChar) ::
                  tokens (rmAllF alts (f - (t.takeWhile isWordChar).length)
                    (some ((t.takeWhile isWordChar).getLastD c))
                    (t.dropWhile isWordChar)) := by
              rw [show c :: (t.takeWhile isWordChar ++ _) =
                  (c :: t.takeWhile isWordChar) ++
                    rmAllF alts (f - (t.takeWhile isWordChar).length)
                      (some ((t.takeWhile isWordChar).getLastD c))
                      (t.dropWhile isWordChar) from by rw [List.cons_append]]
              exact tokens_append_token (List.cons_ne_nil _ _) htokw
                (rmAllF_head_nonword alts hwa _ _ _ hrsafe)
            rw [hout, hrec, htokens]
            rw [List.filter_cons_of_pos (by simpa using hany)]
        · have hcf : isWordChar c = false := by simpa using hc
          have hm := altMatchAt_nonword_head alts hwa hcf prev t
          simp only [rmAllF, hm]
          rw [tokens_cons_nonword hcf, tokens_cons_nonword hcf]
          exact ih t (some c) f (by simp at hn; omega) (by simp at hfuel; omega)
            (Or.inl (by simpa [isWordOpt] using hcf))

/-- The wrapped global remover, started at the beginning of the string. -/
theorem tokens_rmAll (alts : List Str)
    (hwa : ∀ w ∈ alts, w ≠ [] ∧ ∀ x ∈ w, isWordChar x = true) (s : Str) :
    tokens (rmAll alts none s) =
      (tokens s).filter (fun tok => !(alts.any (fun w => ciEqStr tok w))) :=
  tokens_rmAllF alts hwa s.length s none s.length le_rfl le_rfl (Or.inl rfl)

/-- `rmFirst` passes through a word run when its left context is a word
character. -/
theorem rmFirst_word_passage (alts : List Str) :
    ∀ (u : Str), (∀ x ∈ u, isWordChar x = true) →
    ∀ (p : Char), isWordChar p = true → ∀ (rest : Str),
    rmFirst alts (some p) (u ++ rest) =
      u ++ rmFirst alts (some (u.getLastD p)) rest := by
  intro u
  induction u with
  | nil => intro _ p _ rest; simp [List.getLastD]
  | cons a u' ih =>
    intro hu p hp rest
    have ha : isWordChar a = true := hu a (by simp)
    rw [List.cons_append]
    have hm := altMatchAt_interior alts hp ha (u' ++ rest)
    simp only [rmFirst, hm]
    rw [ih (fun x hx => hu x (by simp [hx])) a ha rest]
    rw [List.getLastD_cons]
    rfl

/-- `rmFirst` keeps a non-word first character in place. -/
theorem rmFirst_head_nonword (alts : List Str)
    (hwa : ∀ w ∈ alts, w ≠ [] ∧ ∀ x ∈ w, isWordChar x = true)
    (prev : Option Char) (s : Str)
    (hs : ∀ d, s.head? = some d → isWordChar d = false) :
    ∀ d, (rmFirst alts prev s).head? = some d → isWordChar d = false := by
  cases s with
  | nil => intro d h; simp [rmFirst] at h
  | cons c t =>
    have hc : isWordChar c = false := hs c rfl
    have hm := altMatchAt_nonword_head alts hwa hc prev t
    intro d h
    simp only [rmFirst, hm, List.head?_cons, Option.some.injEq] at h
    subst h
    exact hc

/-- First-occurrence whole-word removal at the token level: only the first
token matching one of the alternatives is erased; every later matching
token stays. -/
theorem tokens_rmFirst (alts : List Str)
    (hwa : ∀ w ∈ alts, w ≠ [] ∧ ∀ x ∈ w, isWordChar x = true) :
    ∀ (n : Nat) (s : Str) (prev : Option Char), s.length ≤ n →
    (isWordOpt prev = false ∨ ∀ d, s.head? = some d → isWordChar d = false) →
    tokens (rmFirst alts prev s) =
      (tokens s).eraseP (fun tok => alts.any (fun w => ciEqStr tok w)) := by
  intro n
  induction n with
  | zero =>
    intro s prev hn _
    have hnil : s = [] := List.eq_nil_of_length_eq_zero (Nat.le_zero.mp hn)
    subst hnil
    simp [rmFirst, tokens, tokensAux]
  | succ n ih =>
    intro s prev hn hsafe
    cases s with
    | nil => simp [rmFirst, tokens, tokensAux]
    | cons c t =>
      by_cases hc : isWordChar c = true
      · have hprev : isWordOpt prev = false := by
          rcases hsafe with h | h
          · exact h
          · rw [h c rfl] at hc; exact absurd hc (by simp)
        have hsplit : t.takeWhile isWordChar ++ t.dropWhile isWordChar = t :=
          List.takeWhile_append_dropWhile isWordChar t
        have htkw : ∀ x ∈ t.takeWhile isWordChar, isWordChar x = true :=
          fun x hx => List.mem_takeWhile_imp hx
        have htokw : ∀ x ∈ c :: t.takeWhile isWordChar, isWordChar x = true := by
          intro x hx
          rcases List.mem_cons.mp hx with h | h
          · subst h; exact hc
          · exact htkw x h
        have hrsafe : ∀ d, (t.dropWhile isWordChar).head? = some d →
            isWordChar d = false := fun d hd => head_dropWhile_false t d hd
        have hshape : c :: t = (c :: t.takeWhile isWordChar) ++ t.dropWhile isWordChar := by
          rw [List.cons_append, hsplit]
        have hmatch := altMatchAt_token alts hwa hprev
          (List.cons_ne_nil c (t.takeWhile isWordChar)) htokw hrsafe
        have htokens : tokens (c :: t) =
            (c :: t.takeWhile isWordChar) :: tokens (t.dropWhile isWordChar) := by
          rw [hshape]
          exact tokens_append_token (List.cons_ne_nil _ _) htokw hrsafe
        by_cases hany :
            alts.any (fun w => ciEqStr (c :: t.takeWhile isWordChar) w) = true
        · rw [if_pos hany] at hmatch
          have hmc : altMatchAt alts prev (c :: t) =
              some (c :: t.takeWhile isWordChar).length := by rw [hshape]; exact hmatch
          simp only [rmFirst, hmc]
          have hdrop : (c :: t).drop (c :: t.takeWhile isWordChar).length =
              t.dropWhile isWordChar := by
            rw [hshape]; exact List.drop_left _ _
          rw [hdrop, htokens]
          rw [List.eraseP_cons_of_pos (by simpa using hany)]
        · rw [if_neg (by simpa using hany)] at hmatch
          have hmc : altMatchAt alts prev (c :: t) = none := by rw [hshape]; exact hmatch
          simp only [rmFirst, hmc]
          have hpass := rmFirst_word_passage alts (t.takeWhile isWordChar) htkw c hc
            (t.dropWhile isWordChar)
          rw [hsplit] at hpass
          rw [hpass]
          have hlent : (t.takeWhile isWordChar).length + (t.dropWhile isWordChar).length
              = t.length := by
            have h2 := congrArg List.length hsplit
            rw [List.length_append] at h2
            exact h2
          have hrec := ih (t.dropWhile isWordChar)
            (some ((t.takeWhile isWordChar).getLastD c))
            (by simp at hn; omega) (Or.inr hrsafe)
          have hout : tokens (c :: (t.takeWhile isWordChar ++
              rmFirst alts (some ((t.takeWhile isWordChar).getLastD c))
                (t.dropWhile isWordChar))) =
              (c :: t.takeWhile isWordChar) ::
                tokens (rmFirst alts (some ((t.takeWhile isWordChar).getLastD c))
                  (t.dropWhile isWordChar)) := by
            rw [show c :: (t.takeWhile isWordChar ++ _) =
                (c :: t.takeWhile isWordChar) ++
                  rmFirst alts (some ((t.takeWhile isWordChar).getLastD c))
                    (t.dropWhile isWordChar) from by rw [List.cons_append]]
            exact tokens_append_token (List.cons_ne_nil _ _) htokw
              (rmFirst_head_nonword alts hwa _ _ hrsafe)
          rw [hout, hrec, htokens]
          rw [List.eraseP_cons_of_neg (by simpa using hany)]
      · have hcf : isWordChar c = false := by simpa using hc
        have hm := altMatchAt_nonword_head alts hwa hcf prev t
        simp only [rmFirst, hm]
        rw [tokens_cons_nonword hcf, tokens_cons_nonword hcf]
        exact ih t (some c) (by simp at hn; omega)
          (Or.inl (by simpa [isWordOpt] using hcf))

/-- The exclude-word stage removes exactly the tokens equal (ignoring
case) to one of the user's words. -/
theorem tokens_removeExcludeWords (ws : List Str)
    (hws : ∀ w ∈ ws, w ≠ [] ∧ ∀ x ∈ w, isWordChar x = true) (s : Str) :
    tokens (removeExcludeWords ws s) =
      (tokens s).filter (fun tok => !(ws.any (fun w => ciEqStr tok w))) := by
  induction ws generalizing s with
  | nil => simp [removeExcludeWords]
  | cons w ws' ih =>
    unfold removeExcludeWords
    rw [List.foldl_cons]
    have h1 := ih (fun x hx => hws x (by simp [hx])) (rmAll [w] none s)
    unfold removeExcludeWords at h1
    rw [h1]
    rw [tokens_rmAll [w] (by
      intro x hx
      simp only [List.mem_singleton] at hx
      subst hx
      exact hws _ (by simp)) s]
    rw [List.filter_filter]
    apply List.filter_congr
    intro tok _
    simp only [List.any_cons, List.any_nil, List.any_eq_true, Bool.or_false]
    cases h : ciEqStr tok w <;> simp [h]

/-- Erasing one matching element loses at most one match. -/
theorem countP_eraseP_ge (p : Str → Bool) :
    ∀ (l : List Str), l.countP p ≤ (l.eraseP p).countP p + 1 := by
  intro l
  induction l with
  | nil => simp
  | cons a l' ih =>
    by_cases ha : p a = true
    · rw [List.eraseP_cons_of_pos ha, List.countP_cons_of_pos p l' ha]
    · rw [List.eraseP_cons_of_neg ha, List.countP_cons_of_neg p l' ha,
        List.countP_cons_of_neg p (l'.eraseP p) ha]
      exact ih

/-- Geographical-term removal for a single term, at the token level: the
first token matching the term or its plural is erased, nothing else
changes. -/
theorem tokens_removeGeographicalTerms (w : Str) (hne : w ≠ [])
    (hw : ∀ x ∈ w, isWordChar x = true) (t : Str) (htne : t ≠ []) :
    tokens (removeGeographicalTerms [w] t) =
      (tokens t).eraseP (fun tok => [w, w ++ ['s']].any (fun u => ciEqStr tok u)) := by
  have hwa : ∀ u ∈ [w, w ++ ['s']], u ≠ [] ∧ ∀ x ∈ u, isWordChar x = true := by
    intro u hu
    rcases List.mem_cons.mp hu with h | h
    · subst h; exact ⟨hne, hw⟩
    · rw [List.mem_singleton] at h
      subst h
      refine ⟨by simp, ?_⟩
      intro x hx
      rcases List.mem_append.mp hx with h | h
      · exact hw x h
      · rw [List.mem_singleton] at h
        subst h
        decide
  unfold removeGeographicalTerms
  rw [if_neg htne, List.foldl_cons, List.foldl_nil, tokens_normalizeWhitespace]
  exact tokens_rmFirst [w, w ++ ['s']] hwa t.length t none le_rfl (Or.inl rfl)

/-! ### Claim 9: exclude words are removed as whole words only -/

/-- **C9.** Exclude-word removal is a case-insensitive whole-word match
only: for every list of (non-empty, word-character) exclude words and
every text, the surviving tokens are exactly the original tokens not
case-insensitively equal to an exclude word — a word is never stripped
from inside a longer word.  Concretely, preprocessing
`"the theater is great"` with exclude word `"the"` yields
`"theater is great"`, leaving the token `"theater"` intact. -/
theorem claim9_exclude_words_whole_word :
    (∀ (ws : List Str) (s : Str),
      (∀ w ∈ ws, w ≠ [] ∧ ∀ x ∈ w, isWordChar x = true) →
      tokens (removeExcludeWords ws s) =
        (tokens s).filter (fun tok => !(ws.any (fun w => ciEqStr tok w)))) ∧
    preprocessText [] "the theater is great".toList none (some ["the".toList]) =
      "theater is great".toList := by
  refine ⟨fun ws s hws => tokens_removeExcludeWords ws hws s, ?_⟩
  decide

/-! ### Claim 10: geographical terms are removed first-occurrence-only -/

/-- **C10.** Because each geo-term pattern is compiled without the `g`
flag, `removeGeographicalTerms` erases only the first token matching the
term (or its plural) and leaves every later occurrence in place: with at
least two matching tokens in the input, at least one matching token
remains in the output. -/
theorem claim10_geo_first_occurrence_only (w t : Str)
    (hne : w ≠ []) (hw : ∀ x ∈ w, isWordChar x = true) (htne : t ≠ [])
    (hmany : 2 ≤ (tokens t).countP
      (fun tok => [w, w ++ ['s']].any (fun u => ciEqStr tok u))) :
    tokens (removeGeographicalTerms [w] t) =
      (tokens t).eraseP (fun tok => [w, w ++ ['s']].any (fun u => ciEqStr tok u)) ∧
    1 ≤ (tokens (removeGeographicalTerms [w] t)).countP
      (fun tok => [w, w ++ ['s']].any (fun u => ciEqStr tok u)) := by
  have h1 := tokens_removeGeographicalTerms w hne hw t htne
  refine ⟨h1, ?_⟩
  rw [h1]
  have h2 := countP_eraseP_ge
    (fun tok => [w, w ++ ['s']].any (fun u => ciEqStr tok u)) (tokens t)
  omega

/-- Witness for C9: the general token characterisation instantiated at
exclude word `"the"` and text `"the theater is great"`. -/
theorem claim9_exclude_words_whole_word_witness :
    tokens (removeExcludeWords ["the".toList] "the theater is great".toList) =
      (tokens "the theater is great".toList).filter
        (fun tok => !(["the".toList].any (fun w => ciEqStr tok w))) :=
  claim9_exclude_words_whole_word.1 ["the".toList] "the theater is great".toList (by decide)

/-- Witness for C10: the term `"paris"` occurs twice in
`"paris and paris"`; removal erases exactly one occurrence and one
survives. -/
theorem claim10_geo_first_occurrence_only_witness :
    tokens (removeGeographicalTerms ["paris".toList] "paris and paris".toList) =
      (tokens "paris and paris".toList).eraseP
        (fun tok => ["paris".toList, "paris".toList ++ ['s']].any (fun u => ciEqStr tok u)) ∧
    1 ≤ (tokens (removeGeographicalTerms ["paris".toList] "paris and paris".toList)).countP
      (fun tok => ["paris".toList, "paris".toList ++ ['s']].any (fun u => ciEqStr tok u)) :=
  claim10_geo_first_occurrence_only "paris".toList "paris and paris".toList
    (by decide) (by decide) (by decide) (by decide)

end EnglishValidator
